import Mathlib

/-!
Verification of the connexion JSON-schema core (src/connexion/json_schema.py).

The development shallowly embeds the two subsystems of the file:

* the extended Draft-4 validation engine (validate_type, validate_enum,
  validate_required, validate_readOnly, validate_writeOnly, validate_oneOf,
  validate_allOf, validate_properties, and the two validator configurations
  Draft4RequestValidator / Draft4ResponseValidator), and
* the JSON-reference resolver (resolve_refs with its inner _do_resolve),
  modelled over an explicit heap because the Python code mutates nodes in
  place and the aliasing introduced by node.update is observable.

JSON values are the inductive JVal.  The baseline jsonschema engine is an
out-of-scope collaborator; it is modelled at its interface: keyword dispatch
over the keys of a schema object, descend as recursive validation, and the
baseline Draft-4 handlers for the keywords the claims exercise (properties,
allOf).  Draft-4 keywords never exercised by the claims are not modelled and
dispatch to a no-op, matching the fact that none of the claims mention them.
Recursive functions take a Nat fuel argument so that they are structurally
recursive and reduce inside the kernel; fuel exhaustion returns none.
-/

/-- A JSON-like value: object (insertion-ordered fields), array, string,
integer number, boolean, null.  Mirrors the untyped values the Python code
manipulates (floats are not needed by any claim). -/
inductive JVal where
  | obj (fields : List (String × JVal))
  | arr (elems : List JVal)
  | str (s : String)
  | num (n : Int)
  | bool (b : Bool)
  | null

/-- First-occurrence lookup in an association list (Python dict read). -/
def lookupField {α : Type} : List (String × α) → String → Option α
  | [], _ => none
  | (k', v) :: rest, k => if k' = k then some v else lookupField rest k

/-- Python dict assignment d[k] = v: replace the value of an existing key in
place, otherwise append the new key at the end. -/
def setKey {α : Type} : List (String × α) → String → α → List (String × α)
  | [], k, v => [(k, v)]
  | (k', v') :: rest, k, v =>
      if k' = k then (k', v) :: rest else (k', v') :: setKey rest k v

/-- Python dict.update(other): assign every key of other in order. -/
def dictUpdate {α : Type} (base upd : List (String × α)) : List (String × α) :=
  upd.foldl (fun acc kv => setKey acc kv.1 kv.2) base

/-- Python del d[k]: remove the (first) occurrence of the key. -/
def delKey {α : Type} : List (String × α) → String → List (String × α)
  | [], _ => []
  | (k', v') :: rest, k => if k' = k then rest else (k', v') :: delKey rest k

/-- Membership of a key (Python: k in d). -/
def hasKey {α : Type} (fields : List (String × α)) (k : String) : Bool :=
  fields.any (fun kv => kv.1 == k)

/-- Python schema.get(k): key lookup on an object, none otherwise. -/
def objGet : JVal → String → Option JVal
  | JVal.obj fields, k => lookupField fields k
  | _, _ => none

/-- Python truthiness of a JSON value. -/
def truthy : JVal → Bool
  | JVal.obj fields => !fields.isEmpty
  | JVal.arr elems => !elems.isEmpty
  | JVal.str s => s ≠ ""
  | JVal.num n => n ≠ 0
  | JVal.bool b => b
  | JVal.null => false

/-- Truthiness of schema.get(k) (absent key is None, hence falsy). -/
def truthyOpt : Option JVal → Bool
  | some v => truthy v
  | none => false

/-- Python (x is True) for the result of schema.get(k). -/
def isTrueOpt : Option JVal → Bool
  | some (JVal.bool true) => true
  | _ => false

def isNull : JVal → Bool
  | JVal.null => true
  | _ => false

def isObj : JVal → Bool
  | JVal.obj _ => true
  | _ => false

/-- The nullable short-circuit guard shared (textually repeated) by
validate_type, validate_enum, validate_oneOf and validate_properties:
instance is None and (schema.get(x-nullable) is True or
schema.get(nullable)). -/
def nullableGuard (inst schema : JVal) : Bool :=
  isNull inst &&
    (isTrueOpt (objGet schema "x-nullable") || truthyOpt (objGet schema "nullable"))

/-- Draft-4 is_type check of the baseline engine, on the JSON types the
claims use.  Booleans do not count as numbers or integers. -/
def isType (inst : JVal) (t : String) : Bool :=
  match t with
  | "string" => match inst with | JVal.str _ => true | _ => false
  | "number" => match inst with | JVal.num _ => true | _ => false
  | "integer" => match inst with | JVal.num _ => true | _ => false
  | "object" => isObj inst
  | "array" => match inst with | JVal.arr _ => true | _ => false
  | "boolean" => match inst with | JVal.bool _ => true | _ => false
  | "null" => isNull inst
  | _ => false

/-- jsonschema _utils.ensure_list: wrap a scalar type declaration. -/
def ensureList : JVal → List JVal
  | JVal.arr l => l
  | v => [v]

/-- Message payloads of the ValidationError records each handler creates.
The Python code formats strings; the model keeps the formatted arguments. -/
inductive VErrMsg where
  | typesMsg (inst : JVal) (types : List JVal)
  | enumMsg (inst : JVal) (enums : JVal)
  | requiredMsg (prop : JVal)
  | readOnlyMsg
  | writeOnlyMsg
  | oneOfNotValid (inst : JVal)
  | oneOfMoreValid (inst : JVal) (schemas : List JVal)

/-- A ValidationError: message and nested context errors.  The path and
schema_path bookkeeping of descend is not modelled; no claim refers to it. -/
inductive VErr where
  | mk (msg : VErrMsg) (context : List VErr)

/-- The two validator configurations assembled at the bottom of the file. -/
inductive Mode where
  | request
  | response

/-- Whether a keyword is present in the VALIDATORS registry of the given
configuration (Python: k in validator.VALIDATORS).  Draft4RequestValidator
extends Draft-4 with type, enum, required, readOnly, oneOf, allOf;
Draft4ResponseValidator with type, enum, required, writeOnly, x-writeOnly,
properties, oneOf.  The baseline Draft-4 registry supplies properties and
allOf where not overridden and contains none of readOnly, writeOnly,
x-writeOnly.  Only the keywords modelled by this development are listed. -/
def registered : Mode → String → Bool
  | Mode.request, k =>
      ["type", "enum", "required", "readOnly", "oneOf", "allOf", "properties"].contains k
  | Mode.response, k =>
      ["type", "enum", "required", "writeOnly", "x-writeOnly", "properties", "oneOf", "allOf"].contains k

/-- validate_type: nullable short-circuit, then the instance must match one
of the declared types. -/
def validate_type (types inst schema : JVal) : List VErr :=
  if nullableGuard inst schema then []
  else
    let tl := ensureList types
    if tl.any (fun t => match t with | JVal.str s => isType inst s | _ => false) then []
    else [VErr.mk (VErrMsg.typesMsg inst tl) []]

/-- Equality of JSON values, used by Python `instance not in enums`.
Defined by well-founded recursion; no claim forces its evaluation on a
non-empty enumeration, so reducibility is not needed. -/
def jvalBeq : JVal → JVal → Bool
  | JVal.null, JVal.null => true
  | JVal.bool a, JVal.bool b => a == b
  | JVal.num a, JVal.num b => a == b
  | JVal.str a, JVal.str b => a == b
  | JVal.arr a, JVal.arr b =>
      match a, b with
      | [], [] => true
      | x :: xs, y :: ys => jvalBeq x y && jvalBeq (JVal.arr xs) (JVal.arr ys)
      | _, _ => false
  | JVal.obj a, JVal.obj b =>
      match a, b with
      | [], [] => true
      | (k, x) :: xs, (k', y) :: ys =>
          k == k' && jvalBeq x y && jvalBeq (JVal.obj xs) (JVal.obj ys)
      | _, _ => false
  | _, _ => false

/-- validate_enum: nullable short-circuit, then membership in the
enumerated values. -/
def validate_enum (enums inst schema : JVal) : List VErr :=
  if nullableGuard inst schema then []
  else
    let member := match enums with
      | JVal.arr l => l.any (fun e => jvalBeq inst e)
      | _ => false
    if member then [] else [VErr.mk (VErrMsg.enumMsg inst enums) []]

/-- One required property check: the body of the loop of validate_required
for a property missing from the instance would run the exemption checks;
the full handler is below. -/
def requiredCheck (m : Mode) (p : JVal) (inst schema : JVal) : List VErr :=
  let present := match p, inst with
    | JVal.str s, JVal.obj fl => hasKey fl s
    | _, _ => false
  if present then []
  else
    let sub := match objGet schema "properties", p with
      | some (JVal.obj pl), JVal.str s => lookupField pl s
      | _, _ => none
    match sub with
    | some subschema =>
        if registered m "readOnly" && truthyOpt (objGet subschema "readOnly") then []
        else if registered m "writeOnly" && truthyOpt (objGet subschema "writeOnly") then []
        else if registered m "x-writeOnly" && isTrueOpt (objGet subschema "x-writeOnly") then []
        else [VErr.mk (VErrMsg.requiredMsg p) []]
    | none => [VErr.mk (VErrMsg.requiredMsg p) []]

/-- validate_required: only objects are checked; for each required property
missing from the instance, a read-only or write-only marked subschema is
exempted when the active configuration registers the corresponding keyword;
otherwise an error is produced. -/
def validate_required (m : Mode) (required inst schema : JVal) : List VErr :=
  if !isObj inst then []
  else
    match required with
    | JVal.arr props => (props.map (fun p => requiredCheck m p inst schema)).flatten
    | _ => []

/-- The list comprehension over the remaining, partially consumed iterator
of validate_oneOf: subschemas s with validator.is_valid(instance, s). -/
def oneOfFilterValid (descend : JVal → Option (List VErr)) :
    List JVal → Option (List JVal)
  | [] => some []
  | s :: rest => do
      let errs ← descend s
      let more ← oneOfFilterValid descend rest
      some (if errs.isEmpty then s :: more else more)

/-- Inner loop of validate_oneOf.  It walks the enumerate(oneOf) iterator,
collecting the errors of failing subschemas; at the first subschema with no
errors it stops and checks only the REMAINING subschemas for additional
matches (the partially consumed iterator); if none succeeded it reports a
not-valid-under-any error whose context is every collected sub-error. -/
def oneOfLoop (descend : JVal → Option (List VErr)) (inst : JVal) :
    List JVal → List VErr → Option (List VErr)
  | [], allErrors => some [VErr.mk (VErrMsg.oneOfNotValid inst) allErrors]
  | s :: rest, allErrors => do
      let errs ← descend s
      if errs.isEmpty then do
        let more ← oneOfFilterValid descend rest
        if more.isEmpty then some []
        else some [VErr.mk (VErrMsg.oneOfMoreValid inst (more ++ [s])) []]
      else oneOfLoop descend inst rest (allErrors ++ errs)

/-- validate_oneOf: nullable short-circuit, then the exactly-one-match
discipline implemented by oneOfLoop. -/
def validate_oneOf (descend : JVal → Option (List VErr)) (oneOf : List JVal)
    (inst schema : JVal) : Option (List VErr) :=
  if nullableGuard inst schema then some []
  else oneOfLoop descend inst oneOf []

/-- validate_allOf (the request-mode override): fold the subschemas into one
cumulative schema by dict.update (shallow merge, later keys win) and descend
the instance into the cumulative schema once per subschema index. -/
def allOfLoop (descend : JVal → Option (List VErr)) :
    List JVal → List (String × JVal) → Option (List VErr)
  | [], _ => some []
  | sub :: rest, acc =>
      match sub with
      | JVal.obj sf => do
          let acc' := dictUpdate acc sf
          let errs ← descend (JVal.obj acc')
          let more ← allOfLoop descend rest acc'
          some (errs ++ more)
      | _ => none

def validate_allOf (descend : JVal → Option (List VErr)) (allOf : List JVal) :
    Option (List VErr) :=
  allOfLoop descend allOf []

/-- Baseline Draft-4 allOf of the underlying engine (used by the response
configuration, which does not override allOf): descend the instance into
every subschema separately. -/
def allOf_draft4 (descend : JVal → Option (List VErr)) :
    List JVal → Option (List VErr)
  | [] => some []
  | sub :: rest => do
      let errs ← descend sub
      let more ← allOf_draft4 descend rest
      some (errs ++ more)

/-- Shared body of the properties handlers: for each declared property
present in the instance, descend the property value into its subschema. -/
def propertiesLoop (descend : JVal → JVal → Option (List VErr)) (inst : JVal) :
    List (String × JVal) → Option (List VErr)
  | [] => some []
  | (p, subschema) :: rest => do
      let errs ←
        match inst with
        | JVal.obj il =>
            match lookupField il p with
            | some child => descend subschema child
            | none => some []
        | _ => some []
      let more ← propertiesLoop descend inst rest
      some (errs ++ more)

/-- Baseline Draft-4 properties of the underlying engine (the request
configuration does not override properties). -/
def properties_draft4 (descend : JVal → JVal → Option (List VErr))
    (props : List (String × JVal)) (inst : JVal) : Option (List VErr) :=
  if !isObj inst then some [] else propertiesLoop descend inst props

/-- validate_properties (the response-mode override): nullable
short-circuit first, then the baseline behaviour. -/
def validate_properties (descend : JVal → JVal → Option (List VErr))
    (props : List (String × JVal)) (inst schema : JVal) : Option (List VErr) :=
  if nullableGuard inst schema then some []
  else if !isObj inst then some []
  else propertiesLoop descend inst props

/-- Keyword dispatch of the extended validators: which handler the active
configuration runs for a schema key.  validate_readOnly and
validate_writeOnly unconditionally yield their error whenever dispatched.
Keys absent from the registry (in particular nullable and x-nullable, and
the baseline keywords no claim exercises) dispatch to nothing. -/
def runKeyword (m : Mode) (descend : JVal → JVal → Option (List VErr))
    (k : String) (kv schema inst : JVal) : Option (List VErr) :=
  match k with
  | "type" => some (validate_type kv inst schema)
  | "enum" => some (validate_enum kv inst schema)
  | "required" => some (validate_required m kv inst schema)
  | "readOnly" =>
      match m with
      | Mode.request => some [VErr.mk VErrMsg.readOnlyMsg []]
      | Mode.response => some []
  | "writeOnly" =>
      match m with
      | Mode.request => some []
      | Mode.response => some [VErr.mk VErrMsg.writeOnlyMsg []]
  | "x-writeOnly" =>
      match m with
      | Mode.request => some []
      | Mode.response => some [VErr.mk VErrMsg.writeOnlyMsg []]
  | "oneOf" =>
      match kv with
      | JVal.arr l => validate_oneOf (fun s => descend s inst) l inst schema
      | _ => none
  | "allOf" =>
      match kv with
      | JVal.arr l =>
          match m with
          | Mode.request => validate_allOf (fun s => descend s inst) l
          | Mode.response => allOf_draft4 (fun s => descend s inst) l
      | _ => none
  | "properties" =>
      match kv with
      | JVal.obj pl =>
          match m with
          | Mode.request => properties_draft4 descend pl inst
          | Mode.response => validate_properties descend pl inst schema
      | _ => none
  | _ => some []

/-- Keyword iteration of the baseline engine: run the handler of every
schema key in order and concatenate the produced errors. -/
def iterKeys (run : String → JVal → JVal → JVal → Option (List VErr)) :
    List (String × JVal) → JVal → JVal → Option (List VErr)
  | [], _, _ => some []
  | (k, v) :: rest, schema, inst => do
      let errs ← run k v schema inst
      let more ← iterKeys run rest schema inst
      some (errs ++ more)

/-- iter_errors of the extended validators: dispatch every keyword of the
schema object; non-object schemas validate nothing.  descend recursively
validates with the same configuration.  The fuel bounds recursion depth;
none means the bound was hit (never the case in the theorems below). -/
def iterErrors (m : Mode) : Nat → JVal → JVal → Option (List VErr)
  | 0, _, _ => none
  | fuel+1, schema, inst =>
    match schema with
    | JVal.obj fields =>
        iterKeys (runKeyword m (fun s i => iterErrors m fuel s i)) fields schema inst
    | _ => some []

/-!
The reference resolver.  resolve_refs deep-copies the spec and then walks it
with the inner _do_resolve, which mutates dict nodes in place; the merge of
the known-reference fast path (node.update followed by del of the $ref key)
makes the merged node share its children with the looked-up fragment, so the
model keeps an explicit heap: a list of nodes addressed by position.  The
external-reference branch (resolver.resolving, a network or file fetch
through the out-of-scope UrlHandler collaborators) is modelled as failure:
every claim about the resolver only exercises local references.
-/

/-- A heap node: objects and arrays hold addresses of their children. -/
inductive HNode where
  | obj (fields : List (String × Nat))
  | arr (elems : List Nat)
  | str (s : String)
  | num (n : Int)
  | bool (b : Bool)
  | null

/-- The heap: node at address a is the a-th list entry. -/
abbrev Heap := List HNode

def Heap.read (h : Heap) (a : Nat) : Option HNode := List.get? h a

def Heap.write (h : Heap) (a : Nat) (n : HNode) : Heap := List.set h a n

def Heap.size (h : Heap) : Nat := List.length h

/-- Python node[k] = v on the dict at address a (no-op on non-dicts, which
the walk never produces). -/
def heapSetField (h : Heap) (a : Nat) (k : String) (v : Nat) : Heap :=
  match Heap.read h a with
  | some (HNode.obj fields) => Heap.write h a (HNode.obj (setKey fields k v))
  | _ => h

/-- Python node[i] = v on the list at address a. -/
def heapSetElem (h : Heap) (a : Nat) (i : Nat) (v : Nat) : Heap :=
  match Heap.read h a with
  | some (HNode.arr elems) => Heap.write h a (HNode.arr (elems.set i v))
  | _ => h

/-- Python str.split(sep) for a one-character separator, on the decoded
characters; "".split(sep) is [""]. -/
def splitSlashAux : List Char → List Char → List String
  | [], acc => [String.mk acc.reverse]
  | c :: rest, acc =>
      if c = '/' then String.mk acc.reverse :: splitSlashAux rest []
      else splitSlashAux rest (c :: acc)

def splitSlash (cs : List Char) : List String := splitSlashAux cs []

/-- Modelled from the spec: the document-local path lookup used by the
known-reference fast path (connexion.utils.deep_get, whose source is not
part of this core).  It follows the slash-separated path key by key from the
root document and fails (KeyError) as soon as a key is absent or the current
node is not a mapping. -/
def deepGet (h : Heap) : Nat → List String → Option Nat
  | a, [] => some a
  | a, k :: rest =>
      match Heap.read h a with
      | some (HNode.obj fields) =>
          match lookupField fields k with
          | some v => deepGet h v rest
          | none => none
      | _ => none

/-- The loop `for k, v in node.items(): node[k] = _do_resolve(v)` of
_do_resolve: live iteration over the fields of the dict at address a,
re-resolving each value and assigning the result back.  steps is the number
of fields at loop entry (the dict never gains or loses keys while the loop
runs).  res is the recursive _do_resolve call. -/
def resolveFieldsLoop (res : Heap → Nat → Option (Heap × Nat)) (a : Nat) :
    Nat → Nat → Heap → Option Heap
  | 0, _, h => some h
  | steps+1, i, h =>
      match Heap.read h a with
      | some (HNode.obj fields) =>
          match List.get? fields i with
          | some kv =>
              match res h kv.2 with
              | some (h1, r) =>
                  resolveFieldsLoop res a steps (i+1) (heapSetField h1 a kv.1 r)
              | none => none
          | none => some h
      | _ => some h

/-- The loop `for i, _ in enumerate(node): node[i] = _do_resolve(node[i])`
of _do_resolve, for list nodes. -/
def resolveElemsLoop (res : Heap → Nat → Option (Heap × Nat)) (a : Nat) :
    Nat → Nat → Heap → Option Heap
  | 0, _, h => some h
  | steps+1, i, h =>
      match Heap.read h a with
      | some (HNode.arr elems) =>
          match List.get? elems i with
          | some v =>
              match res h v with
              | some (h1, r) =>
                  resolveElemsLoop res a steps (i+1) (heapSetElem h1 a i r)
              | none => none
          | none => some h
      | _ => some h

/-- _do_resolve.  For a mapping with a $ref key: split the reference after
the two-character local prefix, try the known-reference fast path against
the document root: on success merge the looked-up fields into the node by
dict.update, delete the $ref key and return the node at once (no recursion
into the merged result); on KeyError fall through to the external resolver,
modelled as failure (none) since the fetch is an out-of-scope collaborator.
A fast-path target that is not a mapping makes node.update raise, also
modelled as none.  Mappings without $ref and lists are walked in place;
scalars are returned unchanged.  The function always returns the address it
was given.  spec is the address of the (copied) document root. -/
def doResolve : Nat → Heap → Nat → Nat → Option (Heap × Nat)
  | 0, _, _, _ => none
  | fuel+1, h, spec, a =>
    match Heap.read h a with
    | some (HNode.obj fields) =>
        match lookupField fields "$ref" with
        | some refAddr =>
            match Heap.read h refAddr with
            | some (HNode.str refstr) =>
                match deepGet h spec (splitSlash (refstr.toList.drop 2)) with
                | some target =>
                    match Heap.read h target with
                    | some (HNode.obj tfields) =>
                        some (Heap.write h a (HNode.obj (delKey (dictUpdate fields tfields) "$ref")), a)
                    | _ => none
                | none => none
            | _ => none
        | none =>
            match resolveFieldsLoop (fun hh v => doResolve fuel hh spec v) a fields.length 0 h with
            | some h' => some (h', a)
            | none => none
    | some (HNode.arr elems) =>
        match resolveElemsLoop (fun hh v => doResolve fuel hh spec v) a elems.length 0 h with
        | some h' => some (h', a)
        | none => none
    | some _ => some (h, a)
    | none => none

/-- Recursive copy of the children of a node (the copy.deepcopy collaborator
of resolve_refs): copy each field value in order, threading the heap. -/
def copyFieldsLoop (copy : Heap → Nat → Option (Heap × Nat)) :
    Heap → List (String × Nat) → Option (Heap × List (String × Nat))
  | h, [] => some (h, [])
  | h, (k, v) :: rest =>
      match copy h v with
      | some (h1, v') =>
          match copyFieldsLoop copy h1 rest with
          | some (h2, rest') => some (h2, (k, v') :: rest')
          | none => none
      | none => none

def copyElemsLoop (copy : Heap → Nat → Option (Heap × Nat)) :
    Heap → List Nat → Option (Heap × List Nat)
  | h, [] => some (h, [])
  | h, v :: rest =>
      match copy h v with
      | some (h1, v') =>
          match copyElemsLoop copy h1 rest with
          | some (h2, rest') => some (h2, v' :: rest')
          | none => none
      | none => none

/-- copy.deepcopy, modelled at its interface: allocate a structurally equal
copy of the value rooted at a entirely in fresh addresses (appended at the
end of the heap), leaving every existing address untouched. -/
def deepcopy : Nat → Heap → Nat → Option (Heap × Nat)
  | 0, _, _ => none
  | fuel+1, h, a =>
    match Heap.read h a with
    | some (HNode.obj fields) =>
        match copyFieldsLoop (deepcopy fuel) h fields with
        | some (h1, fields') => some (h1 ++ [HNode.obj fields'], Heap.size h1)
        | none => none
    | some (HNode.arr elems) =>
        match copyElemsLoop (deepcopy fuel) h elems with
        | some (h1, elems') => some (h1 ++ [HNode.arr elems'], Heap.size h1)
        | none => none
    | some n => some (h ++ [n], Heap.size h)
    | none => none

/-- resolve_refs: deep-copy the spec, then run _do_resolve on the copy (the
resolver for external references and the store are not modelled; every
external reference fails resolution in this model). -/
def resolve_refs (fuel : Nat) (h : Heap) (a : Nat) : Option (Heap × Nat) :=
  match deepcopy fuel h a with
  | some (h1, a1) => doResolve fuel h1 a1 a1
  | none => none

/-- Read the value rooted at an address back out of the heap as a tree. -/
def readFieldsLoop (ro : Nat → Option JVal) :
    List (String × Nat) → Option (List (String × JVal))
  | [] => some []
  | (k, v) :: rest =>
      match ro v with
      | some t =>
          match readFieldsLoop ro rest with
          | some ts => some ((k, t) :: ts)
          | none => none
      | none => none

def readElemsLoop (ro : Nat → Option JVal) : List Nat → Option (List JVal)
  | [] => some []
  | v :: rest =>
      match ro v with
      | some t =>
          match readElemsLoop ro rest with
          | some ts => some (t :: ts)
          | none => none
      | none => none

def readOut : Nat → Heap → Nat → Option JVal
  | 0, _, _ => none
  | fuel+1, h, a =>
    match Heap.read h a with
    | some (HNode.obj fields) => (readFieldsLoop (readOut fuel h) fields).map JVal.obj
    | some (HNode.arr elems) => (readElemsLoop (readOut fuel h) elems).map JVal.arr
    | some (HNode.str s) => some (JVal.str s)
    | some (HNode.num n) => some (JVal.num n)
    | some (HNode.bool b) => some (JVal.bool b)
    | some HNode.null => some JVal.null
    | none => none

/-- Key lists without duplicates, as Python dicts guarantee. -/
def nodupKeys : List String → Bool
  | [] => true
  | k :: rest => !rest.contains k && nodupKeys rest

/-- Conjunction of an Option Bool list fold used by schemaOkH. -/
def okFieldsLoop (ok : Nat → Option Bool) : List (String × Nat) → Option Bool
  | [] => some true
  | (_, v) :: rest =>
      match ok v with
      | some b =>
          match okFieldsLoop ok rest with
          | some bs => some (b && bs)
          | none => none
      | none => none

def okElemsLoop (ok : Nat → Option Bool) : List Nat → Option Bool
  | [] => some true
  | v :: rest =>
      match ok v with
      | some b =>
          match okElemsLoop ok rest with
          | some bs => some (b && bs)
          | none => none
      | none => none

/-- The value rooted at a contains no reachable $ref key and every reachable
mapping has duplicate-free keys (the latter is automatic for values that
come from Python dicts). -/
def schemaOkH : Nat → Heap → Nat → Option Bool
  | 0, _, _ => none
  | fuel+1, h, a =>
    match Heap.read h a with
    | some (HNode.obj fields) =>
        if hasKey fields "$ref" then some false
        else if !nodupKeys (fields.map Prod.fst) then some false
        else okFieldsLoop (schemaOkH fuel h) fields
    | some (HNode.arr elems) => okElemsLoop (schemaOkH fuel h) elems
    | some _ => some true
    | none => none

/-- No $ref key occurs anywhere in a tree value. -/
def refFreeFieldsLoop (rf : JVal → Bool) : List (String × JVal) → Bool
  | [] => true
  | (k, v) :: rest => k ≠ "$ref" && rf v && refFreeFieldsLoop rf rest

def refFreeElemsLoop (rf : JVal → Bool) : List JVal → Bool
  | [] => true
  | v :: rest => rf v && refFreeElemsLoop rf rest

def refFree (fuel : Nat) : JVal → Bool :=
  match fuel with
  | 0 => fun _ => false
  | fuel+1 => fun t =>
      match t with
      | JVal.obj fields => refFreeFieldsLoop (refFree fuel) fields
      | JVal.arr elems => refFreeElemsLoop (refFree fuel) elems
      | _ => true

/-!
Concrete documents used by the claims of the specification.
-/

/-- Schema of the required/readOnly example: required [id] with a read-only
string property id. -/
def roSchema : JVal :=
  JVal.obj [("required", JVal.arr [JVal.str "id"]),
    ("properties", JVal.obj [("id", JVal.obj [("type", JVal.str "string"), ("readOnly", JVal.bool true)])])]

/-- The same schema with the property marked write-only instead. -/
def woSchema : JVal :=
  JVal.obj [("required", JVal.arr [JVal.str "id"]),
    ("properties", JVal.obj [("id", JVal.obj [("type", JVal.str "string"), ("writeOnly", JVal.bool true)])])]

/-- Schema of the nullable example: type string, nullable true. -/
def nullableStrSchema : JVal :=
  JVal.obj [("type", JVal.str "string"), ("nullable", JVal.bool true)]

/-- Schema of the oneOf example: subschemas type-string and the empty
schema, the second of which matches anything. -/
def oneOfExSchema : JVal :=
  JVal.obj [("oneOf", JVal.arr [JVal.obj [("type", JVal.str "string")], JVal.obj []])]

/-- Schema of the allOf example: two subschemas constraining properties.a
to string and to number respectively. -/
def allOfExSchema : JVal :=
  JVal.obj [("allOf", JVal.arr
    [JVal.obj [("properties", JVal.obj [("a", JVal.obj [("type", JVal.str "string")])])],
     JVal.obj [("properties", JVal.obj [("a", JVal.obj [("type", JVal.str "number")])])]])]

/-- Heap of the local-reference document: keys a (value 1 object) and
b (a reference to a). -/
def c7Heap : Heap :=
  [HNode.obj [("a", 1), ("b", 3)],
   HNode.obj [("value", 2)],
   HNode.num 1,
   HNode.obj [("$ref", 4)],
   HNode.str "#/a"]

/-- Heap of a document whose key a references key b, where the fragment b is
itself a reference node carrying an extra key that holds a nested reference:
a: ref to b; b: ref to c together with extra: ref to c; c: the object v 1. -/
def c3Heap : Heap :=
  [HNode.obj [("a", 1), ("b", 3), ("c", 7)],
   HNode.obj [("$ref", 2)],
   HNode.str "#/b",
   HNode.obj [("$ref", 4), ("extra", 5)],
   HNode.str "#/c",
   HNode.obj [("$ref", 6)],
   HNode.str "#/c",
   HNode.obj [("v", 8)],
   HNode.num 1]

/-- Heap of a document whose key a references key b, where the fragment b
holds a nested reference to d under its key c: the nested reference is
resolved in the output because the walk visits it at its original location
after the merge shares the node. -/
def c3ShareHeap : Heap :=
  [HNode.obj [("a", 1), ("b", 3), ("d", 6)],
   HNode.obj [("$ref", 2)],
   HNode.str "#/b",
   HNode.obj [("c", 4)],
   HNode.obj [("$ref", 5)],
   HNode.str "#/d",
   HNode.obj [("v", 7)],
   HNode.num 1]

/-- A small heap exercising the fast path directly: node 2 is a reference
to key a of the root, whose value is the object at address 1. -/
def fastPathHeap : Heap :=
  [HNode.obj [("a", 1), ("b", 2)],
   HNode.obj [("v", 3)],
   HNode.obj [("$ref", 4)],
   HNode.num 1,
   HNode.str "#/a"]

/-- A reference-free document: the object a: [v: 7]. -/
def noRefHeap : Heap :=
  [HNode.obj [("a", 1)],
   HNode.obj [("v", 2)],
   HNode.num 7]

/-- The addresses a node points to. -/
def childAddrs : HNode → List Nat
  | HNode.obj fields => fields.map Prod.snd
  | HNode.arr elems => elems
  | _ => []

/-- Every node stored at or above the watermark n0 points only to addresses
at or above n0 and inside the heap.  The deep copy produced by resolve_refs
satisfies this for the watermark equal to the size of the original heap, and
the walk preserves it, which is what confines every write of _do_resolve to
the copied region. -/
def ClosedFrom (n0 : Nat) (h : Heap) : Prop :=
  ∀ a node, n0 ≤ a → Heap.read h a = some node →
    ∀ c ∈ childAddrs node, n0 ≤ c ∧ c < Heap.size h

/-!
Helper lemmas for the oneOf handler.
-/

theorem oneOfFilterValid_eq (d : JVal → List VErr) (l : List JVal) :
    oneOfFilterValid (fun s => some (d s)) l =
      some (l.filter (fun s => (d s).isEmpty)) := by
  induction l with
  | nil => rfl
  | cons s rest ih =>
      by_cases hs : (d s).isEmpty <;>
        simp [oneOfFilterValid, ih, List.filter_cons, hs]

theorem oneOfLoop_allInvalid (d : JVal → List VErr) (inst : JVal) (l : List JVal)
    (acc : List VErr) (h : ∀ s ∈ l, (d s).isEmpty = false) :
    oneOfLoop (fun s => some (d s)) inst l acc =
      some [VErr.mk (VErrMsg.oneOfNotValid inst) (acc ++ (l.map d).flatten)] := by
  induction l generalizing acc with
  | nil => simp [oneOfLoop]
  | cons s rest ih =>
      have hs := h s (by simp)
      rw [show oneOfLoop (fun s => some (d s)) inst (s :: rest) acc =
        oneOfLoop (fun s => some (d s)) inst rest (acc ++ d s) by
          simp [oneOfLoop, hs]]
      rw [ih (acc ++ d s) (fun x hx => h x (List.mem_cons_of_mem _ hx))]
      simp

theorem oneOfLoop_found (d : JVal → List VErr) (inst : JVal) (pre post : List JVal)
    (s : JVal) (acc : List VErr) (hpre : ∀ x ∈ pre, (d x).isEmpty = false)
    (hs : (d s).isEmpty = true) :
    oneOfLoop (fun t => some (d t)) inst (pre ++ s :: post) acc =
      (if (post.filter (fun t => (d t).isEmpty)).isEmpty then some []
       else some [VErr.mk (VErrMsg.oneOfMoreValid inst
         ((post.filter (fun t => (d t).isEmpty)) ++ [s])) []]) := by
  induction pre generalizing acc with
  | nil => simp [oneOfLoop, hs, oneOfFilterValid_eq]
  | cons x rest ih =>
      have hx := hpre x (by simp)
      rw [List.cons_append,
        show oneOfLoop (fun t => some (d t)) inst (x :: (rest ++ s :: post)) acc =
          oneOfLoop (fun t => some (d t)) inst (rest ++ s :: post) (acc ++ d x) by
            simp [oneOfLoop, hx]]
      exact ih (acc ++ d x) (fun y hy => hpre y (List.mem_cons_of_mem _ hy))

theorem exists_firstValid (p : JVal → Bool) (l : List JVal)
    (h : l.countP p ≠ 0) :
    ∃ pre s post, l = pre ++ s :: post ∧ (∀ x ∈ pre, p x = false) ∧ p s = true := by
  induction l with
  | nil => exact absurd rfl h
  | cons a rest ih =>
      by_cases ha : p a
      · exact ⟨[], a, rest, rfl, by simp, ha⟩
      · have hrest : rest.countP p ≠ 0 := by
          simpa [List.countP_cons, ha] using h
        obtain ⟨pre, s, post, heq, hpre, hs⟩ := ih hrest
        refine ⟨a :: pre, s, post, by simp [heq], ?_, hs⟩
        intro x hx
        rcases List.mem_cons.mp hx with h1 | h2
        · subst h1; simpa using ha
        · exact hpre x h2

/-- C1: for the oneOf handler, if exactly one subschema validates the
instance with zero errors the handler yields no error; if no subschema
matches it yields a single not-valid-under-any error whose context is the
concatenation of every collected sub-error; if more than one matches it
yields a single valid-under-each-of error listing all matching subschemas
(a permutation of them, the first match moved to the end); and on the
concrete example of subschemas [type string, empty schema] with instance
string x, full request-mode validation fails with the valid-under-each-of
error naming the two matching subschemas. -/
theorem oneOf_exactly_one (d : JVal → List VErr) (l : List JVal)
    (inst schema : JVal) (hg : nullableGuard inst schema = false) :
    (l.countP (fun s => (d s).isEmpty) = 1 →
       validate_oneOf (fun s => some (d s)) l inst schema = some []) ∧
    (l.countP (fun s => (d s).isEmpty) = 0 →
       validate_oneOf (fun s => some (d s)) l inst schema =
         some [VErr.mk (VErrMsg.oneOfNotValid inst) ((l.map d).flatten)]) ∧
    (2 ≤ l.countP (fun s => (d s).isEmpty) →
       ∃ ms, ms.Perm (l.filter (fun s => (d s).isEmpty)) ∧
         validate_oneOf (fun s => some (d s)) l inst schema =
           some [VErr.mk (VErrMsg.oneOfMoreValid inst ms) []]) ∧
    iterErrors Mode.request 8 oneOfExSchema (JVal.str "x") =
      some [VErr.mk (VErrMsg.oneOfMoreValid (JVal.str "x")
        [JVal.obj [], JVal.obj [("type", JVal.str "string")]]) []] := by
  refine ⟨?one, ?zero, ?many, rfl⟩
  case zero =>
    intro h0
    have hall : ∀ s ∈ l, (d s).isEmpty = false := by
      intro s hsl
      have := List.countP_eq_zero.mp h0 s hsl
      simpa using this
    simpa [validate_oneOf, hg] using oneOfLoop_allInvalid d inst l [] hall
  case one =>
    intro h1
    obtain ⟨pre, s, post, heq, hpre, hs⟩ :=
      exists_firstValid (fun s => (d s).isEmpty) l (by omega)
    have hfil : l.filter (fun s => (d s).isEmpty) =
        s :: post.filter (fun s => (d s).isEmpty) := by
      rw [heq, List.filter_append, List.filter_cons, List.filter_eq_nil_iff.mpr ?hp]
      · simp [hs]
      case hp => intro x hx; simp [hpre x hx]
    have hlen := h1
    rw [List.countP_eq_length_filter, hfil, List.length_cons] at hlen
    have hempty : (post.filter (fun s => (d s).isEmpty)).isEmpty = true := by
      have : (post.filter (fun s => (d s).isEmpty)).length = 0 := by omega
      simpa [List.isEmpty_iff] using List.length_eq_zero.mp this
    simp only [validate_oneOf, hg, Bool.false_eq_true, if_false]
    rw [heq, oneOfLoop_found d inst pre post s [] hpre hs, if_pos hempty]
  case many =>
    intro h2
    obtain ⟨pre, s, post, heq, hpre, hs⟩ :=
      exists_firstValid (fun s => (d s).isEmpty) l (by omega)
    have hfil : l.filter (fun s => (d s).isEmpty) =
        s :: post.filter (fun s => (d s).isEmpty) := by
      rw [heq, List.filter_append, List.filter_cons, List.filter_eq_nil_iff.mpr ?hp2]
      · simp [hs]
      case hp2 => intro x hx; simp [hpre x hx]
    have hlen := h2
    rw [List.countP_eq_length_filter, hfil, List.length_cons] at hlen
    have hne : (post.filter (fun s => (d s).isEmpty)).isEmpty = false := by
      cases hfp : post.filter (fun s => (d s).isEmpty) with
      | nil => rw [hfp, List.length_nil] at hlen; omega
      | cons a as => simp
    refine ⟨post.filter (fun s => (d s).isEmpty) ++ [s], ?_, ?_⟩
    · rw [hfil]; exact List.perm_append_singleton s _
    · simp only [validate_oneOf, hg, Bool.false_eq_true, if_false]
      rw [heq, oneOfLoop_found d inst pre post s [] hpre hs, if_neg (by simp [hne])]

/-- Witness for the oneOf theorem at concrete inputs: the descend function
validates the two example subschemas against the string instance, counts one
match for subschemas [type-string, type-number] and two matches for
[type-string, empty]. -/
theorem oneOf_exactly_one_witness :
    nullableGuard (JVal.str "x") (JVal.obj []) = false ∧
    validate_oneOf
      (fun s => some (validate_type (objGet s "type" |>.getD JVal.null) (JVal.str "x") s))
      [JVal.obj [("type", JVal.str "string")], JVal.obj [("type", JVal.str "number")]]
      (JVal.str "x") (JVal.obj []) = some [] := by
  constructor
  · rfl
  · exact (oneOf_exactly_one
      (fun s => validate_type (objGet s "type" |>.getD JVal.null) (JVal.str "x") s)
      [JVal.obj [("type", JVal.str "string")], JVal.obj [("type", JVal.str "number")]]
      (JVal.str "x") (JVal.obj []) rfl).1 (by rfl)

/-- C2 counterexample: the claim expects the instance a: 1 to pass the allOf
example with zero errors, but request-mode validation yields a type error —
the handler descends into every cumulative prefix merge, and the prefix at
index 0 still constrains a to string. -/
theorem allOf_a_num_counterexample :
    iterErrors Mode.request 8 allOfExSchema (JVal.obj [("a", JVal.num 1)]) =
      some [VErr.mk (VErrMsg.typesMsg (JVal.num 1) [JVal.str "string"]) []] ∧
    iterErrors Mode.request 8 allOfExSchema (JVal.obj [("a", JVal.num 1)]) ≠
      some [] := by
  refine ⟨rfl, ?_⟩
  intro h
  rw [show iterErrors Mode.request 8 allOfExSchema (JVal.obj [("a", JVal.num 1)]) =
    some [VErr.mk (VErrMsg.typesMsg (JVal.num 1) [JVal.str "string"]) []] from rfl] at h
  simp at h

/-- C2 amended: in the allOf example the later subschema does win the merged
schema by shallow overwrite, so the instance a: x fails with a type-number
error produced at index 1; but because the instance is descended into every
cumulative prefix merge, the instance a: 1 also fails, with the type-string
error produced by the prefix at index 0. -/
theorem allOf_prefix_merge :
    iterErrors Mode.request 8 allOfExSchema (JVal.obj [("a", JVal.str "x")]) =
      some [VErr.mk (VErrMsg.typesMsg (JVal.str "x") [JVal.str "number"]) []] ∧
    iterErrors Mode.request 8 allOfExSchema (JVal.obj [("a", JVal.num 1)]) =
      some [VErr.mk (VErrMsg.typesMsg (JVal.num 1) [JVal.str "string"]) []] := by
  exact ⟨rfl, rfl⟩

/-- C4: with schema required [id] and a read-only string property id, the
request-mode validator accepts the empty object (the absent read-only
property is tolerated), while the response-mode validator yields the
required-property error for id. -/
theorem required_readOnly_modes :
    iterErrors Mode.request 8 roSchema (JVal.obj []) = some [] ∧
    iterErrors Mode.response 8 roSchema (JVal.obj []) =
      some [VErr.mk (VErrMsg.requiredMsg (JVal.str "id")) []] := by
  exact ⟨rfl, rfl⟩

/-- C5 counterexample: the claim states the read-only exemption applies only
in response mode and the write-only exemption only in request mode; the code
does the opposite.  The request-mode validator (which registers readOnly)
tolerates the missing read-only property while the response-mode one errors;
the response-mode validator (which registers writeOnly) tolerates the
missing write-only property while the request-mode one errors. -/
theorem required_exemption_counterexample :
    iterErrors Mode.request 8 roSchema (JVal.obj []) = some [] ∧
    iterErrors Mode.response 8 roSchema (JVal.obj []) =
      some [VErr.mk (VErrMsg.requiredMsg (JVal.str "id")) []] ∧
    iterErrors Mode.response 8 woSchema (JVal.obj []) = some [] ∧
    iterErrors Mode.request 8 woSchema (JVal.obj []) =
      some [VErr.mk (VErrMsg.requiredMsg (JVal.str "id")) []] := by
  exact ⟨rfl, rfl, rfl, rfl⟩

/-- C5 amended: the exemption fires exactly when the active configuration
registers the corresponding keyword, and the registries put readOnly in the
REQUEST validator and writeOnly and x-writeOnly in the RESPONSE validator;
hence the read-only exemption applies only in request mode and the
write-only exemption only in response mode, as the mode-indexed behaviour
of the required handler shows. -/
theorem required_exemption_by_registry :
    registered Mode.request "readOnly" = true ∧
    registered Mode.response "readOnly" = false ∧
    registered Mode.request "writeOnly" = false ∧
    registered Mode.response "writeOnly" = true ∧
    registered Mode.request "x-writeOnly" = false ∧
    registered Mode.response "x-writeOnly" = true ∧
    (∀ m : Mode, iterErrors m 8 roSchema (JVal.obj []) =
      some (match m with
        | Mode.request => []
        | Mode.response => [VErr.mk (VErrMsg.requiredMsg (JVal.str "id")) []])) ∧
    (∀ m : Mode, iterErrors m 8 woSchema (JVal.obj []) =
      some (match m with
        | Mode.request => [VErr.mk (VErrMsg.requiredMsg (JVal.str "id")) []]
        | Mode.response => [])) := by
  refine ⟨rfl, rfl, rfl, rfl, rfl, rfl, ?_, ?_⟩ <;> intro m <;> cases m <;> rfl

/-- C6: for schema type string with nullable true, validating the null
instance yields zero errors (the type check is skipped for null under a
nullable schema), and validating the instance 42 yields exactly one type
error. -/
theorem nullable_type_shortcircuit :
    iterErrors Mode.request 8 nullableStrSchema JVal.null = some [] ∧
    iterErrors Mode.request 8 nullableStrSchema (JVal.num 42) =
      some [VErr.mk (VErrMsg.typesMsg (JVal.num 42) [JVal.str "string"]) []] := by
  exact ⟨rfl, rfl⟩

/-- C10: the two nullable markers are tested asymmetrically by the shared
guard of validate_type, validate_enum, validate_oneOf and
validate_properties: x-nullable short-circuits a null instance only when its
value is exactly the boolean true, while nullable short-circuits for every
truthy value.  Consequently any truthy nullable value silences all four
handlers on a null instance, while a non-true x-nullable value (even a
truthy one) leaves the type, enum and oneOf errors in place. -/
theorem nullable_marker_asymmetry (v w : JVal)
    (hv : truthy v = true) (hw : w ≠ JVal.bool true)
    (d : JVal → Option (List VErr)) (d2 : JVal → JVal → Option (List VErr)) :
    nullableGuard JVal.null (JVal.obj [("nullable", v)]) = true ∧
    nullableGuard JVal.null (JVal.obj [("x-nullable", w)]) = false ∧
    validate_type (JVal.str "string") JVal.null (JVal.obj [("nullable", v)]) = [] ∧
    validate_enum (JVal.arr []) JVal.null (JVal.obj [("nullable", v)]) = [] ∧
    validate_oneOf d [] JVal.null (JVal.obj [("nullable", v)]) = some [] ∧
    validate_properties d2 [] JVal.null (JVal.obj [("nullable", v)]) = some [] ∧
    validate_type (JVal.str "string") JVal.null (JVal.obj [("x-nullable", w)]) =
      [VErr.mk (VErrMsg.typesMsg JVal.null [JVal.str "string"]) []] ∧
    validate_enum (JVal.arr []) JVal.null (JVal.obj [("x-nullable", w)]) =
      [VErr.mk (VErrMsg.enumMsg JVal.null (JVal.arr [])) []] ∧
    validate_oneOf d [] JVal.null (JVal.obj [("x-nullable", w)]) =
      some [VErr.mk (VErrMsg.oneOfNotValid JVal.null) []] := by
  have hxw : isTrueOpt (some w) = false := by
    cases w with
    | bool b =>
        cases b with
        | true => exact absurd rfl hw
        | false => rfl
    | obj fields => rfl
    | arr elems => rfl
    | str s => rfl
    | num n => rfl
    | null => rfl
  have hg1 : nullableGuard JVal.null (JVal.obj [("nullable", v)]) = true := by
    simp [nullableGuard, isNull, objGet, lookupField, truthyOpt, hv, isTrueOpt]
  have hg2 : nullableGuard JVal.null (JVal.obj [("x-nullable", w)]) = false := by
    simp [nullableGuard, isNull, objGet, lookupField, truthyOpt, hxw]
  refine ⟨hg1, hg2, ?_, ?_, ?_, ?_, ?_, ?_, ?_⟩
  · simp [validate_type, hg1]
  · simp [validate_enum, hg1]
  · simp [validate_oneOf, hg1]
  · simp [validate_properties, hg1]
  · simp [validate_type, hg2, ensureList, isType, isNull]
  · simp [validate_enum, hg2]
  · simp [validate_oneOf, hg2, oneOfLoop]

/-- Witness for the nullable-marker asymmetry at the nonzero number 1 and
the non-empty string yes: both are truthy and neither is the boolean true,
so nullable short-circuits where x-nullable does not. -/
theorem nullable_marker_asymmetry_witness :
    (truthy (JVal.num 1) = true ∧
      nullableGuard JVal.null (JVal.obj [("nullable", JVal.num 1)]) = true ∧
      nullableGuard JVal.null (JVal.obj [("x-nullable", JVal.num 1)]) = false) ∧
    (truthy (JVal.str "yes") = true ∧
      nullableGuard JVal.null (JVal.obj [("nullable", JVal.str "yes")]) = true ∧
      nullableGuard JVal.null (JVal.obj [("x-nullable", JVal.str "yes")]) = false) := by
  constructor
  · refine ⟨rfl, ?_, ?_⟩
    · exact (nullable_marker_asymmetry (JVal.num 1) (JVal.num 1) rfl
        (by intro h; cases h) (fun _ => some []) (fun _ _ => some [])).1
    · exact (nullable_marker_asymmetry (JVal.num 1) (JVal.num 1) rfl
        (by intro h; cases h) (fun _ => some []) (fun _ _ => some [])).2.1
  · refine ⟨rfl, ?_, ?_⟩
    · exact (nullable_marker_asymmetry (JVal.str "yes") (JVal.str "yes") rfl
        (by intro h; cases h) (fun _ => some []) (fun _ _ => some [])).1
    · exact (nullable_marker_asymmetry (JVal.str "yes") (JVal.str "yes") rfl
        (by intro h; cases h) (fun _ => some []) (fun _ _ => some [])).2.1

/-- C7: resolving the document a: [value: 1], b: [$ref: #/a] succeeds, the
value at key b of the returned tree equals the object [value: 1], and no
$ref key remains anywhere in the result. -/
theorem local_ref_resolution :
    (resolve_refs 16 c7Heap 0).map (fun p => readOut 16 p.1 p.2) =
      some (some (JVal.obj
        [("a", JVal.obj [("value", JVal.num 1)]),
         ("b", JVal.obj [("value", JVal.num 1)])])) ∧
    objGet (JVal.obj
        [("a", JVal.obj [("value", JVal.num 1)]),
         ("b", JVal.obj [("value", JVal.num 1)])]) "b" =
      some (JVal.obj [("value", JVal.num 1)]) ∧
    refFree 16 (JVal.obj
        [("a", JVal.obj [("value", JVal.num 1)]),
         ("b", JVal.obj [("value", JVal.num 1)])]) = true := by
  exact ⟨rfl, rfl, rfl⟩

/-- C3 counterexample: resolving the document a: [$ref: #/b],
b: [$ref: #/c, extra: [$ref: #/c]], c: [v: 1] succeeds, but the reference
nested under the extra key of the looked-up fragment b is NOT resolved in
the returned tree — it survives both under a.extra and under b.extra — so
the fast path does not recurse into the node it returns. -/
theorem fastpath_no_recursion_counterexample :
    (resolve_refs 16 c3Heap 0).map (fun p => readOut 16 p.1 p.2) =
      some (some (JVal.obj
        [("a", JVal.obj [("extra", JVal.obj [("$ref", JVal.str "#/c")])]),
         ("b", JVal.obj [("extra", JVal.obj [("$ref", JVal.str "#/c")]), ("v", JVal.num 1)]),
         ("c", JVal.obj [("v", JVal.num 1)])])) ∧
    refFree 16 (JVal.obj
        [("a", JVal.obj [("extra", JVal.obj [("$ref", JVal.str "#/c")])]),
         ("b", JVal.obj [("extra", JVal.obj [("$ref", JVal.str "#/c")]), ("v", JVal.num 1)]),
         ("c", JVal.obj [("v", JVal.num 1)])]) = false := by
  exact ⟨rfl, rfl⟩

/-- C3 amended: after the known-reference fast path merges the looked-up
fields and deletes the $ref key, _do_resolve returns the node immediately,
with no recursion into the merged result; references nested inside the
looked-up fragment are resolved in the returned tree only through sharing,
when the walk later visits them at their original location — as in the
document a: [$ref: #/b], b: [c: [$ref: #/d]], d: [v: 1], where the nested
reference under b.c is resolved and the resolved value is visible under
a.c as well. -/
theorem fastpath_returns_without_recursion (fuel : Nat) (h : Heap)
    (spec a refAddr target : Nat) (fields tfields : List (String × Nat))
    (refstr : String)
    (h1 : Heap.read h a = some (HNode.obj fields))
    (h2 : lookupField fields "$ref" = some refAddr)
    (h3 : Heap.read h refAddr = some (HNode.str refstr))
    (h4 : deepGet h spec (splitSlash (refstr.toList.drop 2)) = some target)
    (h5 : Heap.read h target = some (HNode.obj tfields)) :
    doResolve (fuel+1) h spec a =
      some (Heap.write h a (HNode.obj (delKey (dictUpdate fields tfields) "$ref")), a) ∧
    (resolve_refs 16 c3ShareHeap 0).map (fun p => readOut 16 p.1 p.2) =
      some (some (JVal.obj
        [("a", JVal.obj [("c", JVal.obj [("v", JVal.num 1)])]),
         ("b", JVal.obj [("c", JVal.obj [("v", JVal.num 1)])]),
         ("d", JVal.obj [("v", JVal.num 1)])])) := by
  constructor
  · simp only [doResolve, h1, h2, h3, h4, h5]
  · rfl

/-- Witness for the fast-path theorem: in the small document whose node 2 is
a reference to key a of the root, the fast path rewrites node 2 to the
merged object and returns it unchanged thereafter. -/
theorem fastpath_returns_without_recursion_witness :
    doResolve 6 fastPathHeap 0 2 =
      some (Heap.write fastPathHeap 2
        (HNode.obj (delKey (dictUpdate [("$ref", 4)] [("v", 3)]) "$ref")), 2) := by
  exact (fastpath_returns_without_recursion 5 fastPathHeap 0 2 4 1
    [("$ref", 4)] [("v", 3)] "#/a" rfl rfl rfl rfl rfl).1

/-!
Heap lemmas for the resolver proofs.
-/

theorem heapRead_lt {h : Heap} {a : Nat} {n : HNode}
    (hr : Heap.read h a = some n) : a < Heap.size h := by
  exact (List.get?_eq_some.mp hr).1

theorem heapRead_append {h ext : Heap} {a : Nat} (ha : a < Heap.size h) :
    Heap.read (h ++ ext) a = Heap.read h a := by
  exact List.get?_append ha

theorem heapRead_concat (h : Heap) (n : HNode) :
    Heap.read (h ++ [n]) (Heap.size h) = some n := by
  exact List.get?_concat_length h n

theorem heapRead_none {h : Heap} {a : Nat} (ha : Heap.size h ≤ a) :
    Heap.read h a = none := by
  exact List.get?_eq_none.mpr ha

theorem heapSize_write (h : Heap) (a : Nat) (n : HNode) :
    Heap.size (Heap.write h a n) = Heap.size h := by
  exact List.length_set h a n

theorem heapSize_append (h ext : Heap) :
    Heap.size (h ++ ext) = Heap.size h + ext.length := by
  exact List.length_append h ext

theorem heapRead_write_ne (h : Heap) {a b : Nat} (n : HNode) (hne : a ≠ b) :
    Heap.read (Heap.write h a n) b = Heap.read h b := by
  exact List.get?_set_ne n h hne

theorem heapRead_write_self {h : Heap} {a : Nat} (n : HNode)
    (ha : a < Heap.size h) :
    Heap.read (Heap.write h a n) a = some n := by
  exact List.get?_set_eq_of_lt n ha

theorem closedFrom_of_ge {n0 : Nat} {h : Heap} (hge : Heap.size h ≤ n0) :
    ClosedFrom n0 h := by
  intro a node han hr c _
  exact absurd (heapRead_lt hr) (by omega)

theorem closedFrom_append_one {n0 : Nat} {h : Heap} {node : HNode}
    (hc : ClosedFrom n0 h)
    (hnode : ∀ c ∈ childAddrs node, n0 ≤ c ∧ c < Heap.size h + 1) :
    ClosedFrom n0 (h ++ [node]) := by
  intro b m hb hr c hcmem
  rw [heapSize_append]
  by_cases hlt : b < Heap.size h
  · rw [heapRead_append hlt] at hr
    have := hc b m hb hr c hcmem
    simp only [List.length_singleton]
    omega
  · by_cases heq : b = Heap.size h
    · subst heq
      rw [heapRead_concat] at hr
      cases hr
      have := hnode c hcmem
      simp only [List.length_singleton]
      omega
    · have : Heap.size (h ++ [node]) ≤ b := by
        rw [heapSize_append]; simp only [List.length_singleton]; omega
      rw [heapRead_none this] at hr
      cases hr

theorem closedFrom_write {n0 : Nat} {h : Heap} {a : Nat} {node : HNode}
    (hc : ClosedFrom n0 h) (ha : n0 ≤ a)
    (hnode : ∀ c ∈ childAddrs node, n0 ≤ c ∧ c < Heap.size h) :
    ClosedFrom n0 (Heap.write h a node) := by
  intro b m hb hr c hcmem
  rw [heapSize_write]
  by_cases heq : a = b
  · subst heq
    by_cases hlt : a < Heap.size h
    · rw [heapRead_write_self node hlt] at hr
      cases hr
      exact hnode c hcmem
    · have : Heap.size (Heap.write h a node) ≤ a := by
        rw [heapSize_write]; omega
      rw [heapRead_none this] at hr
      cases hr
  · rw [heapRead_write_ne h node heq] at hr
    exact hc b m hb hr c hcmem

theorem setKey_snd_subset {α : Type} (fields : List (String × α)) (k : String)
    (x : α) :
    ∀ v ∈ (setKey fields k x).map Prod.snd,
      v ∈ fields.map Prod.snd ∨ v = x := by
  induction fields with
  | nil => intro v hv; simp [setKey] at hv; exact Or.inr hv
  | cons kv rest ih =>
      intro v hv
      obtain ⟨k', v'⟩ := kv
      simp only [setKey] at hv
      by_cases hk : k' = k
      · rw [if_pos hk] at hv
        simp at hv
        rcases hv with hv | hv
        · exact Or.inr hv
        · exact Or.inl (by simp; exact Or.inr hv)
      · rw [if_neg hk] at hv
        simp at hv
        rcases hv with hv | hv
        · exact Or.inl (by simp [hv])
        · rcases ih v (by simpa using hv) with h1 | h1
          · exact Or.inl (by simp at h1 ⊢; exact Or.inr h1)
          · exact Or.inr h1

theorem dictUpdate_snd_subset {α : Type} (base upd : List (String × α)) :
    ∀ v ∈ (dictUpdate base upd).map Prod.snd,
      v ∈ base.map Prod.snd ∨ v ∈ upd.map Prod.snd := by
  induction upd generalizing base with
  | nil => intro v hv; exact Or.inl hv
  | cons kv rest ih =>
      intro v hv
      rw [show dictUpdate base (kv :: rest) =
        dictUpdate (setKey base kv.1 kv.2) rest from rfl] at hv
      rcases ih (setKey base kv.1 kv.2) v hv with h1 | h1
      · rcases setKey_snd_subset base kv.1 kv.2 v h1 with h2 | h2
        · exact Or.inl h2
        · exact Or.inr (by simp [h2])
      · exact Or.inr (by simp at h1 ⊢; exact Or.inr h1)

theorem delKey_snd_subset {α : Type} (fields : List (String × α)) (k : String) :
    ∀ v ∈ (delKey fields k).map Prod.snd, v ∈ fields.map Prod.snd := by
  induction fields with
  | nil => intro v hv; simp [delKey] at hv
  | cons kv rest ih =>
      intro v hv
      obtain ⟨k', v'⟩ := kv
      simp only [delKey] at hv
      by_cases hk : k' = k
      · rw [if_pos hk] at hv
        simp at hv ⊢
        exact Or.inr hv
      · rw [if_neg hk] at hv
        simp at hv ⊢
        rcases hv with hv | hv
        · exact Or.inl hv
        · exact Or.inr (by simpa using ih v (by simpa using hv))

/-- The per-call contract of the deep copy: the heap is only extended, the
returned address is fresh, and closure above any watermark at or below the
old size is preserved. -/
def CopySpec (copy : Heap → Nat → Option (Heap × Nat)) : Prop :=
  ∀ h a h1 a1, copy h a = some (h1, a1) →
    h <+: h1 ∧ Heap.size h ≤ a1 ∧ a1 < Heap.size h1 ∧
    (∀ n0, n0 ≤ Heap.size h → ClosedFrom n0 h → ClosedFrom n0 h1)

theorem copyFieldsLoop_spec {copy : Heap → Nat → Option (Heap × Nat)}
    (Hcopy : CopySpec copy) :
    ∀ (fields : List (String × Nat)) (h h2 : Heap)
      (fields' : List (String × Nat)),
    copyFieldsLoop copy h fields = some (h2, fields') →
    h <+: h2 ∧
    (∀ n0, n0 ≤ Heap.size h → ClosedFrom n0 h → ClosedFrom n0 h2) ∧
    (∀ v ∈ fields'.map Prod.snd, Heap.size h ≤ v ∧ v < Heap.size h2) := by
  intro fields
  induction fields with
  | nil =>
      intro h h2 fields' heq
      simp only [copyFieldsLoop] at heq
      cases heq
      exact ⟨List.prefix_refl h, fun n0 _ hc => hc, by simp⟩
  | cons kv rest ih =>
      intro h h2 fields' heq
      obtain ⟨k, v⟩ := kv
      simp only [copyFieldsLoop] at heq
      split at heq
      case h_2 => cases heq
      case h_1 h1 v' hc =>
        split at heq
        case h_2 => cases heq
        case h_1 hmid rest' hl =>
          obtain ⟨hpre1, hv1, hv2, hcl1⟩ := Hcopy h v h1 v' hc
          obtain ⟨hpre2, hcl2, hbnd⟩ := ih h1 hmid rest' hl
          have hs1 : Heap.size h ≤ Heap.size h1 := hpre1.length_le
          have hs2 : Heap.size h1 ≤ Heap.size hmid := hpre2.length_le
          cases heq
          refine ⟨hpre1.trans hpre2, ?_, ?_⟩
          · intro n0 hn0 hc0
            exact hcl2 n0 (by omega) (hcl1 n0 hn0 hc0)
          · intro u hu
            simp only [List.map_cons, List.mem_cons] at hu
            rcases hu with hu | hu
            · subst hu; omega
            · have := hbnd u hu
              omega

theorem copyElemsLoop_spec {copy : Heap → Nat → Option (Heap × Nat)}
    (Hcopy : CopySpec copy) :
    ∀ (elems : List Nat) (h h2 : Heap) (elems' : List Nat),
    copyElemsLoop copy h elems = some (h2, elems') →
    h <+: h2 ∧
    (∀ n0, n0 ≤ Heap.size h → ClosedFrom n0 h → ClosedFrom n0 h2) ∧
    (∀ v ∈ elems', Heap.size h ≤ v ∧ v < Heap.size h2) := by
  intro elems
  induction elems with
  | nil =>
      intro h h2 elems' heq
      simp only [copyElemsLoop] at heq
      cases heq
      exact ⟨List.prefix_refl h, fun n0 _ hc => hc, by simp⟩
  | cons v rest ih =>
      intro h h2 elems' heq
      simp only [copyElemsLoop] at heq
      split at heq
      case h_2 => cases heq
      case h_1 h1 v' hc =>
        split at heq
        case h_2 => cases heq
        case h_1 hmid rest' hl =>
          obtain ⟨hpre1, hv1, hv2, hcl1⟩ := Hcopy h v h1 v' hc
          obtain ⟨hpre2, hcl2, hbnd⟩ := ih h1 hmid rest' hl
          have hs1 : Heap.size h ≤ Heap.size h1 := hpre1.length_le
          have hs2 : Heap.size h1 ≤ Heap.size hmid := hpre2.length_le
          cases heq
          refine ⟨hpre1.trans hpre2, ?_, ?_⟩
          · intro n0 hn0 hc0
            exact hcl2 n0 (by omega) (hcl1 n0 hn0 hc0)
          · intro u hu
            simp only [List.mem_cons] at hu
            rcases hu with hu | hu
            · subst hu; omega
            · have := hbnd u hu
              omega

theorem deepcopy_spec : ∀ (fuel : Nat), CopySpec (deepcopy fuel) := by
  intro fuel
  induction fuel with
  | zero => intro h a h1 a1 heq; cases heq
  | succ fuel ih =>
      intro h a h1 a1 heq
      cases hr : Heap.read h a with
      | none => simp only [deepcopy, hr] at heq; cases heq
      | some node =>
          cases node with
          | obj fields =>
              simp only [deepcopy, hr] at heq
              cases hl : copyFieldsLoop (deepcopy fuel) h fields with
              | none => rw [hl] at heq; cases heq
              | some p =>
                  obtain ⟨hmid, fields'⟩ := p
                  rw [hl] at heq
                  obtain ⟨hpre, hcl, hbnd⟩ :=
                    copyFieldsLoop_spec ih fields h hmid fields' hl
                  have hs : Heap.size h ≤ Heap.size hmid := hpre.length_le
                  cases heq
                  refine ⟨hpre.trans (List.prefix_append hmid _), by omega, ?_, ?_⟩
                  · rw [heapSize_append]; simp
                  · intro n0 hn0 hc0
                    refine closedFrom_append_one (hcl n0 hn0 hc0) ?_
                    intro c hcmem
                    have := hbnd c (by simpa [childAddrs] using hcmem)
                    omega
          | arr elems =>
              simp only [deepcopy, hr] at heq
              cases hl : copyElemsLoop (deepcopy fuel) h elems with
              | none => rw [hl] at heq; cases heq
              | some p =>
                  obtain ⟨hmid, elems'⟩ := p
                  rw [hl] at heq
                  obtain ⟨hpre, hcl, hbnd⟩ :=
                    copyElemsLoop_spec ih elems h hmid elems' hl
                  have hs : Heap.size h ≤ Heap.size hmid := hpre.length_le
                  cases heq
                  refine ⟨hpre.trans (List.prefix_append hmid _), by omega, ?_, ?_⟩
                  · rw [heapSize_append]; simp
                  · intro n0 hn0 hc0
                    refine closedFrom_append_one (hcl n0 hn0 hc0) ?_
                    intro c hcmem
                    have := hbnd c (by simpa [childAddrs] using hcmem)
                    omega
          | str sv =>
              simp only [deepcopy, hr] at heq
              cases heq
              refine ⟨List.prefix_append h _, le_refl _, ?_, ?_⟩
              · rw [heapSize_append]; simp
              · intro n0 hn0 hc0
                refine closedFrom_append_one hc0 ?_
                intro c hcmem
                simp [childAddrs] at hcmem
          | num nv =>
              simp only [deepcopy, hr] at heq
              cases heq
              refine ⟨List.prefix_append h _, le_refl _, ?_, ?_⟩
              · rw [heapSize_append]; simp
              · intro n0 hn0 hc0
                refine closedFrom_append_one hc0 ?_
                intro c hcmem
                simp [childAddrs] at hcmem
          | bool bv =>
              simp only [deepcopy, hr] at heq
              cases heq
              refine ⟨List.prefix_append h _, le_refl _, ?_, ?_⟩
              · rw [heapSize_append]; simp
              · intro n0 hn0 hc0
                refine closedFrom_append_one hc0 ?_
                intro c hcmem
                simp [childAddrs] at hcmem
          | null =>
              simp only [deepcopy, hr] at heq
              cases heq
              refine ⟨List.prefix_append h _, le_refl _, ?_, ?_⟩
              · rw [heapSize_append]; simp
              · intro n0 hn0 hc0
                refine closedFrom_append_one hc0 ?_
                intro c hcmem
                simp [childAddrs] at hcmem

theorem lookupField_mem {α : Type} {fields : List (String × α)} {k : String}
    {v : α} (h : lookupField fields k = some v) : v ∈ fields.map Prod.snd := by
  induction fields with
  | nil => cases h
  | cons kv rest ih =>
      obtain ⟨k', v'⟩ := kv
      simp only [lookupField] at h
      by_cases hk : k' = k
      · rw [if_pos hk] at h; cases h; simp
      · rw [if_neg hk] at h
        simp only [List.map_cons, List.mem_cons]
        exact Or.inr (ih h)

theorem deepGet_spec {n0 : Nat} {h : Heap} (hc : ClosedFrom n0 h) :
    ∀ (path : List String) (s t : Nat), n0 ≤ s → s < Heap.size h →
    deepGet h s path = some t → n0 ≤ t ∧ t < Heap.size h := by
  intro path
  induction path with
  | nil => intro s t hs1 hs2 heq; cases heq; exact ⟨hs1, hs2⟩
  | cons k rest ih =>
      intro s t hs1 hs2 heq
      cases hr : Heap.read h s with
      | none => simp only [deepGet, hr] at heq; cases heq
      | some node =>
          cases node with
          | obj fields =>
              simp only [deepGet, hr] at heq
              cases hl : lookupField fields k with
              | none => simp only [hl] at heq; cases heq
              | some v =>
                  simp only [hl] at heq
                  have hv := hc s (HNode.obj fields) hs1 hr v
                    (by simpa [childAddrs] using lookupField_mem hl)
                  exact ih v t hv.1 hv.2 heq
          | arr elems => simp only [deepGet, hr] at heq; cases heq
          | str sv => simp only [deepGet, hr] at heq; cases heq
          | num nv => simp only [deepGet, hr] at heq; cases heq
          | bool bv => simp only [deepGet, hr] at heq; cases heq
          | null => simp only [deepGet, hr] at heq; cases heq

theorem heapSetField_size (h : Heap) (a : Nat) (k : String) (v : Nat) :
    Heap.size (heapSetField h a k v) = Heap.size h := by
  unfold heapSetField
  split
  · exact heapSize_write _ _ _
  · rfl

theorem heapSetField_frame {h : Heap} {a n0 : Nat} (ha : n0 ≤ a)
    (k : String) (v : Nat) :
    ∀ i < n0, Heap.read (heapSetField h a k v) i = Heap.read h i := by
  intro i hi
  unfold heapSetField
  split
  · exact heapRead_write_ne h _ (by omega)
  · rfl

theorem heapSetField_closed {n0 : Nat} {h : Heap} {a : Nat} {k : String}
    {v : Nat} (hc : ClosedFrom n0 h) (ha : n0 ≤ a)
    (hv1 : n0 ≤ v) (hv2 : v < Heap.size h) :
    ClosedFrom n0 (heapSetField h a k v) := by
  unfold heapSetField
  split
  case h_1 fields hr =>
    refine closedFrom_write hc ha ?_
    intro c hcmem
    rcases setKey_snd_subset fields k v c (by simpa [childAddrs] using hcmem)
      with h1 | h1
    · exact hc a (HNode.obj fields) ha hr c (by simpa [childAddrs] using h1)
    · subst h1; exact ⟨hv1, hv2⟩
  case h_2 => exact hc

theorem heapSetElem_size (h : Heap) (a i v : Nat) :
    Heap.size (heapSetElem h a i v) = Heap.size h := by
  unfold heapSetElem
  split
  · exact heapSize_write _ _ _
  · rfl

theorem heapSetElem_frame {h : Heap} {a n0 : Nat} (ha : n0 ≤ a) (i v : Nat) :
    ∀ j < n0, Heap.read (heapSetElem h a i v) j = Heap.read h j := by
  intro j hj
  unfold heapSetElem
  split
  · exact heapRead_write_ne h _ (by omega)
  · rfl

theorem heapSetElem_closed {n0 : Nat} {h : Heap} {a i v : Nat}
    (hc : ClosedFrom n0 h) (ha : n0 ≤ a)
    (hv1 : n0 ≤ v) (hv2 : v < Heap.size h) :
    ClosedFrom n0 (heapSetElem h a i v) := by
  unfold heapSetElem
  split
  case h_1 elems hr =>
    refine closedFrom_write hc ha ?_
    intro c hcmem
    rcases List.mem_or_eq_of_mem_set (by simpa [childAddrs] using hcmem)
      with h1 | h1
    · exact hc a (HNode.arr elems) ha hr c (by simpa [childAddrs] using h1)
    · subst h1; exact ⟨hv1, hv2⟩
  case h_2 => exact hc

/-- The per-call contract of the recursive _do_resolve call used by the two
walk loops: it returns the address it was given, preserves the heap size and
closure above the watermark, and never changes an address below it. -/
def ResSpec (n0 sz : Nat) (res : Heap → Nat → Option (Heap × Nat)) : Prop :=
  ∀ h v h' r, n0 ≤ v → ClosedFrom n0 h → Heap.size h = sz →
    res h v = some (h', r) →
    r = v ∧ Heap.size h' = sz ∧ ClosedFrom n0 h' ∧
    (∀ i < n0, Heap.read h' i = Heap.read h i)

theorem resolveFieldsLoop_frame {n0 sz : Nat}
    {res : Heap → Nat → Option (Heap × Nat)} (Hres : ResSpec n0 sz res)
    {a : Nat} (ha : n0 ≤ a) :
    ∀ (steps i : Nat) (h h' : Heap), ClosedFrom n0 h → Heap.size h = sz →
    resolveFieldsLoop res a steps i h = some h' →
    Heap.size h' = sz ∧ ClosedFrom n0 h' ∧
    (∀ j < n0, Heap.read h' j = Heap.read h j) := by
  intro steps
  induction steps with
  | zero =>
      intro i h h' hc hsz heq
      cases heq
      exact ⟨hsz, hc, fun j hj => rfl⟩
  | succ steps ih =>
      intro i h h' hc hsz heq
      cases hr : Heap.read h a with
      | none =>
          simp only [resolveFieldsLoop, hr] at heq
          cases heq
          exact ⟨hsz, hc, fun j hj => rfl⟩
      | some node =>
          cases node with
          | obj fields =>
              simp only [resolveFieldsLoop, hr] at heq
              cases hg : List.get? fields i with
              | none =>
                  simp only [hg] at heq
                  cases heq
                  exact ⟨hsz, hc, fun j hj => rfl⟩
              | some kv =>
                  simp only [hg] at heq
                  cases hres : res h kv.2 with
                  | none => simp only [hres] at heq; cases heq
                  | some p =>
                      obtain ⟨h1, r⟩ := p
                      simp only [hres] at heq
                      have hkv : kv.2 ∈ fields.map Prod.snd :=
                        List.mem_map_of_mem Prod.snd (List.get?_mem hg)
                      have hb := hc a (HNode.obj fields) ha hr kv.2
                        (by simpa [childAddrs] using hkv)
                      obtain ⟨hreq, hs1, hc1, hf1⟩ :=
                        Hres h kv.2 h1 r hb.1 hc hsz hres
                      subst hreq
                      have hc2 : ClosedFrom n0 (heapSetField h1 a kv.1 kv.2) :=
                        heapSetField_closed hc1 ha hb.1 (by omega)
                      have hs2 : Heap.size (heapSetField h1 a kv.1 kv.2) = sz := by
                        rw [heapSetField_size]; exact hs1
                      obtain ⟨hs3, hc3, hf3⟩ := ih (i+1) _ h' hc2 hs2 heq
                      refine ⟨hs3, hc3, ?_⟩
                      intro j hj
                      rw [hf3 j hj, heapSetField_frame ha kv.1 kv.2 j hj, hf1 j hj]
          | arr elems =>
              simp only [resolveFieldsLoop, hr] at heq
              cases heq
              exact ⟨hsz, hc, fun j hj => rfl⟩
          | str sv =>
              simp only [resolveFieldsLoop, hr] at heq
              cases heq
              exact ⟨hsz, hc, fun j hj => rfl⟩
          | num nv =>
              simp only [resolveFieldsLoop, hr] at heq
              cases heq
              exact ⟨hsz, hc, fun j hj => rfl⟩
          | bool bv =>
              simp only [resolveFieldsLoop, hr] at heq
              cases heq
              exact ⟨hsz, hc, fun j hj => rfl⟩
          | null =>
              simp only [resolveFieldsLoop, hr] at heq
              cases heq
              exact ⟨hsz, hc, fun j hj => rfl⟩

theorem resolveElemsLoop_frame {n0 sz : Nat}
    {res : Heap → Nat → Option (Heap × Nat)} (Hres : ResSpec n0 sz res)
    {a : Nat} (ha : n0 ≤ a) :
    ∀ (steps i : Nat) (h h' : Heap), ClosedFrom n0 h → Heap.size h = sz →
    resolveElemsLoop res a steps i h = some h' →
    Heap.size h' = sz ∧ ClosedFrom n0 h' ∧
    (∀ j < n0, Heap.read h' j = Heap.read h j) := by
  intro steps
  induction steps with
  | zero =>
      intro i h h' hc hsz heq
      cases heq
      exact ⟨hsz, hc, fun j hj => rfl⟩
  | succ steps ih =>
      intro i h h' hc hsz heq
      cases hr : Heap.read h a with
      | none =>
          simp only [resolveElemsLoop, hr] at heq
          cases heq
          exact ⟨hsz, hc, fun j hj => rfl⟩
      | some node =>
          cases node with
          | arr elems =>
              simp only [resolveElemsLoop, hr] at heq
              cases hg : List.get? elems i with
              | none =>
                  simp only [hg] at heq
                  cases heq
                  exact ⟨hsz, hc, fun j hj => rfl⟩
              | some v =>
                  simp only [hg] at heq
                  cases hres : res h v with
                  | none => simp only [hres] at heq; cases heq
                  | some p =>
                      obtain ⟨h1, r⟩ := p
                      simp only [hres] at heq
                      have hb := hc a (HNode.arr elems) ha hr v
                        (by simpa [childAddrs] using List.get?_mem hg)
                      obtain ⟨hreq, hs1, hc1, hf1⟩ :=
                        Hres h v h1 r hb.1 hc hsz hres
                      subst hreq
                      have hc2 : ClosedFrom n0 (heapSetElem h1 a i r) :=
                        heapSetElem_closed hc1 ha hb.1 (by omega)
                      have hs2 : Heap.size (heapSetElem h1 a i r) = sz := by
                        rw [heapSetElem_size]; exact hs1
                      obtain ⟨hs3, hc3, hf3⟩ := ih (i+1) _ h' hc2 hs2 heq
                      refine ⟨hs3, hc3, ?_⟩
                      intro j hj
                      rw [hf3 j hj, heapSetElem_frame ha i r j hj, hf1 j hj]
          | obj fields =>
              simp only [resolveElemsLoop, hr] at heq
              cases heq
              exact ⟨hsz, hc, fun j hj => rfl⟩
          | str sv =>
              simp only [resolveElemsLoop, hr] at heq
              cases heq
              exact ⟨hsz, hc, fun j hj => rfl⟩
          | num nv =>
              simp only [resolveElemsLoop, hr] at heq
              cases heq
              exact ⟨hsz, hc, fun j hj => rfl⟩
          | bool bv =>
              simp only [resolveElemsLoop, hr] at heq
              cases heq
              exact ⟨hsz, hc, fun j hj => rfl⟩
          | null =>
              simp only [resolveElemsLoop, hr] at heq
              cases heq
              exact ⟨hsz, hc, fun j hj => rfl⟩

theorem doResolve_frame {n0 : Nat} :
    ∀ (fuel : Nat) (h : Heap) (spec a : Nat) (h' : Heap) (r : Nat),
    n0 ≤ spec → spec < Heap.size h → n0 ≤ a → ClosedFrom n0 h →
    doResolve fuel h spec a = some (h', r) →
    r = a ∧ Heap.size h' = Heap.size h ∧ ClosedFrom n0 h' ∧
    (∀ i < n0, Heap.read h' i = Heap.read h i) := by
  intro fuel
  induction fuel with
  | zero => intro h spec a h' r _ _ _ _ heq; cases heq
  | succ fuel ih =>
      intro h spec a h' r hsp1 hsp2 ha hc heq
      cases hr : Heap.read h a with
      | none => simp only [doResolve, hr] at heq; cases heq
      | some node =>
          cases node with
          | obj fields =>
              simp only [doResolve, hr] at heq
              cases hl : lookupField fields "$ref" with
              | some refAddr =>
                  simp only [hl] at heq
                  cases hrs : Heap.read h refAddr with
                  | none => simp only [hrs] at heq; cases heq
                  | some rn =>
                      cases rn with
                      | str refstr =>
                          simp only [hrs] at heq
                          cases hdg : deepGet h spec
                              (splitSlash (refstr.toList.drop 2)) with
                          | none => simp only [hdg] at heq; cases heq
                          | some target =>
                              simp only [hdg] at heq
                              cases hrt : Heap.read h target with
                              | none => simp only [hrt] at heq; cases heq
                              | some tn =>
                                  cases tn with
                                  | obj tfields =>
                                      simp only [hrt] at heq
                                      cases heq
                                      have htb :=
                                        deepGet_spec hc _ spec target hsp1 hsp2 hdg
                                      refine ⟨rfl, heapSize_write h a _, ?_, ?_⟩
                                      · refine closedFrom_write hc ha ?_
                                        intro c hcmem
                                        have hcm : c ∈ (delKey (dictUpdate fields tfields) "$ref").map Prod.snd := by
                                          simpa [childAddrs] using hcmem
                                        have := delKey_snd_subset
                                          (dictUpdate fields tfields) "$ref" c hcm
                                        rcases dictUpdate_snd_subset fields tfields c this
                                          with h1 | h1
                                        · exact hc a (HNode.obj fields) ha hr c
                                            (by simpa [childAddrs] using h1)
                                        · exact hc target (HNode.obj tfields) htb.1 hrt c
                                            (by simpa [childAddrs] using h1)
                                      · intro i hi
                                        exact heapRead_write_ne h _ (by omega)
                                  | arr telems => simp only [hrt] at heq; cases heq
                                  | str tsv => simp only [hrt] at heq; cases heq
                                  | num tnv => simp only [hrt] at heq; cases heq
                                  | bool tbv => simp only [hrt] at heq; cases heq
                                  | null => simp only [hrt] at heq; cases heq
                      | obj rfields => simp only [hrs] at heq; cases heq
                      | arr relems => simp only [hrs] at heq; cases heq
                      | num rnv => simp only [hrs] at heq; cases heq
                      | bool rbv => simp only [hrs] at heq; cases heq
                      | null => simp only [hrs] at heq; cases heq
              | none =>
                  simp only [hl] at heq
                  cases hloop : resolveFieldsLoop
                      (fun hh v => doResolve fuel hh spec v) a fields.length 0 h with
                  | none => simp only [hloop] at heq; cases heq
                  | some hres =>
                      simp only [hloop] at heq
                      have Hres : ResSpec n0 (Heap.size h)
                          (fun hh v => doResolve fuel hh spec v) := by
                        intro hh v hh' rr hv hcc hszz heqq
                        obtain ⟨e1, e2, e3, e4⟩ :=
                          ih hh spec v hh' rr hsp1 (by rw [hszz]; exact hsp2) hv hcc heqq
                        exact ⟨e1, by rw [e2, hszz], e3, e4⟩
                      obtain ⟨hs3, hc3, hf3⟩ :=
                        resolveFieldsLoop_frame Hres ha fields.length 0 h hres hc rfl hloop
                      cases heq
                      exact ⟨rfl, hs3, hc3, hf3⟩
          | arr elems =>
              simp only [doResolve, hr] at heq
              cases hloop : resolveElemsLoop
                  (fun hh v => doResolve fuel hh spec v) a elems.length 0 h with
              | none => simp only [hloop] at heq; cases heq
              | some hres =>
                  simp only [hloop] at heq
                  have Hres : ResSpec n0 (Heap.size h)
                      (fun hh v => doResolve fuel hh spec v) := by
                    intro hh v hh' rr hv hcc hszz heqq
                    obtain ⟨e1, e2, e3, e4⟩ :=
                      ih hh spec v hh' rr hsp1 (by rw [hszz]; exact hsp2) hv hcc heqq
                    exact ⟨e1, by rw [e2, hszz], e3, e4⟩
                  obtain ⟨hs3, hc3, hf3⟩ :=
                    resolveElemsLoop_frame Hres ha elems.length 0 h hres hc rfl hloop
                  cases heq
                  exact ⟨rfl, hs3, hc3, hf3⟩
          | str sv =>
              simp only [doResolve, hr] at heq
              cases heq
              exact ⟨rfl, rfl, hc, fun i hi => rfl⟩
          | num nv =>
              simp only [doResolve, hr] at heq
              cases heq
              exact ⟨rfl, rfl, hc, fun i hi => rfl⟩
          | bool bv =>
              simp only [doResolve, hr] at heq
              cases heq
              exact ⟨rfl, rfl, hc, fun i hi => rfl⟩
          | null =>
              simp only [doResolve, hr] at heq
              cases heq
              exact ⟨rfl, rfl, hc, fun i hi => rfl⟩

/-- C8: resolve_refs never mutates the caller's original document.  Whatever
heap and root the caller passes, every address that existed before the call
still holds exactly the same node afterwards: resolution operates on the
deep copy appended behind the original and all writes of the walk stay in
the copied region. -/
theorem resolve_refs_no_mutation (fuel : Nat) (h : Heap) (a : Nat)
    (h' : Heap) (r : Nat) (heq : resolve_refs fuel h a = some (h', r)) :
    ∀ i < Heap.size h, Heap.read h' i = Heap.read h i := by
  intro i hi
  unfold resolve_refs at heq
  cases hdc : deepcopy fuel h a with
  | none => rw [hdc] at heq; cases heq
  | some p =>
      obtain ⟨h1, a1⟩ := p
      rw [hdc] at heq
      obtain ⟨hpre, ha1, ha2, hcl⟩ := deepcopy_spec fuel h a h1 a1 hdc
      have hc1 : ClosedFrom (Heap.size h) h1 :=
        hcl (Heap.size h) (le_refl _) (closedFrom_of_ge (le_refl _))
      obtain ⟨-, -, -, hframe⟩ :=
        doResolve_frame fuel h1 a1 a1 h' r ha1 ha2 ha1 hc1 heq
      obtain ⟨ext, hext⟩ := hpre
      rw [hframe i hi, ← hext, heapRead_append hi]

/-- Witness for the non-mutation theorem: resolving the local-reference
document succeeds and leaves the original root node and the original
reference node untouched. -/
theorem resolve_refs_no_mutation_witness :
    Heap.read ((resolve_refs 16 c7Heap 0).getD ([], 0)).1 0 =
      Heap.read c7Heap 0 ∧
    Heap.read ((resolve_refs 16 c7Heap 0).getD ([], 0)).1 3 =
      Heap.read c7Heap 3 := by
  have hsome : resolve_refs 16 c7Heap 0 =
      some (((resolve_refs 16 c7Heap 0).getD ([], 0)).1,
            ((resolve_refs 16 c7Heap 0).getD ([], 0)).2) := rfl
  exact ⟨resolve_refs_no_mutation 16 c7Heap 0 _ _ hsome 0 (by decide),
         resolve_refs_no_mutation 16 c7Heap 0 _ _ hsome 3 (by decide)⟩

theorem hasKey_false_lookup {α : Type} {fields : List (String × α)} {k : String}
    (h : hasKey fields k = false) : lookupField fields k = none := by
  induction fields with
  | nil => rfl
  | cons kv rest ih =>
      obtain ⟨k', v'⟩ := kv
      simp only [hasKey, List.any_cons, Bool.or_eq_false_iff] at h
      simp only [lookupField]
      rw [if_neg (by simpa using h.1)]
      exact ih (by simpa [hasKey] using h.2)

theorem okFieldsLoop_true {ok : Nat → Option Bool} :
    ∀ {fields : List (String × Nat)}, okFieldsLoop ok fields = some true →
    ∀ kv ∈ fields, ok kv.2 = some true := by
  intro fields
  induction fields with
  | nil => intro _ kv hkv; cases hkv
  | cons kv0 rest ih =>
      intro heq kv hkv
      obtain ⟨k0, v0⟩ := kv0
      simp only [okFieldsLoop] at heq
      cases hv : ok v0 with
      | none => rw [hv] at heq; cases heq
      | some b =>
          rw [hv] at heq
          cases hrest : okFieldsLoop ok rest with
          | none => rw [hrest] at heq; cases heq
          | some bs =>
              rw [hrest] at heq
              have hb : b = true ∧ bs = true := by
                have hbb : (b && bs) = true := by injection heq
                simpa using hbb
              rcases List.mem_cons.mp hkv with h1 | h1
              · subst h1; rw [hv, hb.1]
              · exact ih (by rw [hrest, hb.2]) kv h1

theorem okElemsLoop_true {ok : Nat → Option Bool} :
    ∀ {elems : List Nat}, okElemsLoop ok elems = some true →
    ∀ v ∈ elems, ok v = some true := by
  intro elems
  induction elems with
  | nil => intro _ v hv; cases hv
  | cons v0 rest ih =>
      intro heq v hv
      simp only [okElemsLoop] at heq
      cases hv0 : ok v0 with
      | none => rw [hv0] at heq; cases heq
      | some b =>
          rw [hv0] at heq
          cases hrest : okElemsLoop ok rest with
          | none => rw [hrest] at heq; cases heq
          | some bs =>
              rw [hrest] at heq
              have hb : b = true ∧ bs = true := by
                have hbb : (b && bs) = true := by injection heq
                simpa using hbb
              rcases List.mem_cons.mp hv with h1 | h1
              · subst h1; rw [hv0, hb.1]
              · exact ih (by rw [hrest, hb.2]) v h1

theorem setKey_self_of_nodup {α : Type} :
    ∀ {fields : List (String × α)} {i : Nat} {k : String} {v : α},
    nodupKeys (fields.map Prod.fst) = true →
    List.get? fields i = some (k, v) →
    setKey fields k v = fields := by
  intro fields
  induction fields with
  | nil => intro i k v _ hg; cases hg
  | cons kv0 rest ih =>
      intro i k v hnd hg
      obtain ⟨k0, v0⟩ := kv0
      simp only [List.map_cons, nodupKeys, Bool.and_eq_true] at hnd
      cases i with
      | zero =>
          cases hg
          simp [setKey]
      | succ j =>
          rw [List.get?_cons_succ] at hg
          have hmem : k ∈ rest.map Prod.fst := by
            simpa using List.mem_map_of_mem Prod.fst (List.get?_mem hg)
          have hne : k0 ≠ k := by
            intro hcon
            subst hcon
            have hcontains : (List.map Prod.fst rest).contains k0 = true :=
              List.elem_iff.mpr hmem
            rw [hcontains] at hnd
            simp at hnd
          simp only [setKey]
          rw [if_neg hne, ih hnd.2 hg]

theorem listSet_self {α : Type} :
    ∀ (l : List α) (i : Nat) (x : α), List.get? l i = some x → l.set i x = l
  | [], i, x, h => by cases h
  | a :: l, 0, x, h => by cases h; rfl
  | a :: l, i+1, x, h => by
      simp only [List.set]
      rw [listSet_self l i x h]

theorem heapWrite_self {h : Heap} {a : Nat} {n : HNode}
    (hr : Heap.read h a = some n) : Heap.write h a n = h :=
  listSet_self h a n hr

theorem resolveFieldsLoop_noop {res : Heap → Nat → Option (Heap × Nat)}
    {h : Heap} {a : Nat} {fields : List (String × Nat)}
    (hr : Heap.read h a = some (HNode.obj fields))
    (hnd : nodupKeys (fields.map Prod.fst) = true)
    (Hres : ∀ v ∈ fields.map Prod.snd,
      ∀ h' r, res h v = some (h', r) → h' = h ∧ r = v) :
    ∀ (steps i : Nat) (h' : Heap),
    resolveFieldsLoop res a steps i h = some h' → h' = h := by
  intro steps
  induction steps with
  | zero => intro i h' heq; cases heq; rfl
  | succ steps ihs =>
      intro i h' heq
      simp only [resolveFieldsLoop, hr] at heq
      cases hg : List.get? fields i with
      | none => simp only [hg] at heq; cases heq; rfl
      | some kv =>
          simp only [hg] at heq
          cases hresv : res h kv.2 with
          | none => simp only [hresv] at heq; cases heq
          | some p =>
              obtain ⟨h1, r⟩ := p
              simp only [hresv] at heq
              obtain ⟨he1, he2⟩ := Hres kv.2
                (List.mem_map_of_mem Prod.snd (List.get?_mem hg)) h1 r hresv
              subst he2
              rw [he1] at heq
              have hred : heapSetField h a kv.1 kv.2 =
                  Heap.write h a (HNode.obj (setKey fields kv.1 kv.2)) := by
                unfold heapSetField
                rw [hr]
              have hset : heapSetField h a kv.1 kv.2 = h := by
                rw [hred,
                  setKey_self_of_nodup hnd
                    (show List.get? fields i = some (kv.1, kv.2) by rw [hg])]
                exact heapWrite_self hr
              rw [hset] at heq
              exact ihs (i+1) h' heq

theorem resolveElemsLoop_noop {res : Heap → Nat → Option (Heap × Nat)}
    {h : Heap} {a : Nat} {elems : List Nat}
    (hr : Heap.read h a = some (HNode.arr elems))
    (Hres : ∀ v ∈ elems, ∀ h' r, res h v = some (h', r) → h' = h ∧ r = v) :
    ∀ (steps i : Nat) (h' : Heap),
    resolveElemsLoop res a steps i h = some h' → h' = h := by
  intro steps
  induction steps with
  | zero => intro i h' heq; cases heq; rfl
  | succ steps ihs =>
      intro i h' heq
      simp only [resolveElemsLoop, hr] at heq
      cases hg : List.get? elems i with
      | none => simp only [hg] at heq; cases heq; rfl
      | some v =>
          simp only [hg] at heq
          cases hresv : res h v with
          | none => simp only [hresv] at heq; cases heq
          | some p =>
              obtain ⟨h1, r⟩ := p
              simp only [hresv] at heq
              obtain ⟨he1, he2⟩ := Hres v (List.get?_mem hg) h1 r hresv
              subst he2
              rw [he1] at heq
              have hred : heapSetElem h a i r =
                  Heap.write h a (HNode.arr (elems.set i r)) := by
                unfold heapSetElem
                rw [hr]
              have hset : heapSetElem h a i r = h := by
                rw [hred, listSet_self elems i r hg]
                exact heapWrite_self hr
              rw [hset] at heq
              exact ihs (i+1) h' heq

/-- On a document subtree with no reachable $ref key (and duplicate-free
dict keys, as Python dicts guarantee), _do_resolve changes nothing: it
returns the same heap and the address it was given. -/
theorem doResolve_noop :
    ∀ (f : Nat) (h : Heap) (a : Nat),
    schemaOkH f h a = some true →
    ∀ (fuel spec : Nat) (h' : Heap) (r : Nat),
    doResolve fuel h spec a = some (h', r) → h' = h ∧ r = a := by
  intro f
  induction f with
  | zero => intro h a hok; cases hok
  | succ f ih =>
      intro h a hok fuel spec h' r heq
      cases fuel with
      | zero => cases heq
      | succ fuel =>
          cases hr : Heap.read h a with
          | none => simp only [schemaOkH, hr] at hok; cases hok
          | some node =>
              cases node with
              | obj fields =>
                  simp only [schemaOkH, hr] at hok
                  by_cases hrefk : hasKey fields "$ref"
                  · rw [if_pos hrefk] at hok; cases hok
                  · rw [if_neg hrefk] at hok
                    by_cases hnd : !nodupKeys (fields.map Prod.fst)
                    · rw [if_pos hnd] at hok; cases hok
                    · rw [if_neg hnd] at hok
                      have hnd' : nodupKeys (fields.map Prod.fst) = true := by
                        simpa using hnd
                      have hlk : lookupField fields "$ref" = none :=
                        hasKey_false_lookup (by simpa using hrefk)
                      simp only [doResolve, hr, hlk] at heq
                      cases hloop : resolveFieldsLoop
                          (fun hh v => doResolve fuel hh spec v)
                          a fields.length 0 h with
                      | none => simp only [hloop] at heq; cases heq
                      | some hres =>
                          simp only [hloop] at heq
                          have hok' := okFieldsLoop_true hok
                          have hnoop := resolveFieldsLoop_noop hr hnd' ?hresv
                            fields.length 0 hres hloop
                          case hresv =>
                            intro v hv h'' r' heqv
                            obtain ⟨kv, hkv, hkv2⟩ := List.mem_map.mp hv
                            exact ih h v (by rw [← hkv2]; exact hok' kv hkv)
                              fuel spec h'' r' heqv
                          cases heq
                          exact ⟨hnoop, rfl⟩
              | arr elems =>
                  simp only [schemaOkH, hr] at hok
                  simp only [doResolve, hr] at heq
                  cases hloop : resolveElemsLoop
                      (fun hh v => doResolve fuel hh spec v)
                      a elems.length 0 h with
                  | none => simp only [hloop] at heq; cases heq
                  | some hres =>
                      simp only [hloop] at heq
                      have hok' := okElemsLoop_true hok
                      have hnoop := resolveElemsLoop_noop hr ?hresv
                        elems.length 0 hres hloop
                      case hresv =>
                        intro v hv h'' r' heqv
                        exact ih h v (hok' v hv) fuel spec h'' r' heqv
                      cases heq
                      exact ⟨hnoop, rfl⟩
              | str sv =>
                  simp only [doResolve, hr] at heq
                  cases heq
                  exact ⟨rfl, rfl⟩
              | num nv =>
                  simp only [doResolve, hr] at heq
                  cases heq
                  exact ⟨rfl, rfl⟩
              | bool bv =>
                  simp only [doResolve, hr] at heq
                  cases heq
                  exact ⟨rfl, rfl⟩
              | null =>
                  simp only [doResolve, hr] at heq
                  cases heq
                  exact ⟨rfl, rfl⟩

theorem readFieldsLoop_mono {ro ro' : Nat → Option JVal}
    (hmono : ∀ v t, ro v = some t → ro' v = some t) :
    ∀ (fields : List (String × Nat)) (out : List (String × JVal)),
    readFieldsLoop ro fields = some out →
    readFieldsLoop ro' fields = some out := by
  intro fields
  induction fields with
  | nil => intro out heq; exact heq
  | cons kv rest ih =>
      intro out heq
      obtain ⟨k, v⟩ := kv
      simp only [readFieldsLoop] at heq ⊢
      cases hv : ro v with
      | none => rw [hv] at heq; cases heq
      | some t =>
          simp only [hv] at heq
          cases hl : readFieldsLoop ro rest with
          | none => simp only [hl] at heq; cases heq
          | some ts =>
              simp only [hl] at heq
              simp only [hmono v t hv, ih ts hl]
              exact heq

theorem readElemsLoop_mono {ro ro' : Nat → Option JVal}
    (hmono : ∀ v t, ro v = some t → ro' v = some t) :
    ∀ (elems : List Nat) (out : List JVal),
    readElemsLoop ro elems = some out →
    readElemsLoop ro' elems = some out := by
  intro elems
  induction elems with
  | nil => intro out heq; exact heq
  | cons v rest ih =>
      intro out heq
      simp only [readElemsLoop] at heq ⊢
      cases hv : ro v with
      | none => rw [hv] at heq; cases heq
      | some t =>
          simp only [hv] at heq
          cases hl : readElemsLoop ro rest with
          | none => simp only [hl] at heq; cases heq
          | some ts =>
              simp only [hl] at heq
              simp only [hmono v t hv, ih ts hl]
              exact heq

theorem readOut_mono {h ext : Heap} :
    ∀ (f a : Nat) (t : JVal), readOut f h a = some t →
    readOut f (h ++ ext) a = some t := by
  intro f
  induction f with
  | zero => intro a t heq; cases heq
  | succ f ih =>
      intro a t heq
      cases hr : Heap.read h a with
      | none => simp only [readOut, hr] at heq; cases heq
      | some node =>
          have hr' : Heap.read (h ++ ext) a = some node := by
            rw [heapRead_append (heapRead_lt hr)]; exact hr
          cases node with
          | obj fields =>
              simp only [readOut, hr] at heq
              simp only [readOut, hr']
              cases hl : readFieldsLoop (readOut f h) fields with
              | none => rw [hl] at heq; cases heq
              | some out =>
                  rw [hl] at heq
                  rw [readFieldsLoop_mono (fun v tv hv => ih v tv hv) fields out hl]
                  exact heq
          | arr elems =>
              simp only [readOut, hr] at heq
              simp only [readOut, hr']
              cases hl : readElemsLoop (readOut f h) elems with
              | none => rw [hl] at heq; cases heq
              | some out =>
                  rw [hl] at heq
                  rw [readElemsLoop_mono (fun v tv hv => ih v tv hv) elems out hl]
                  exact heq
          | str sv =>
              simp only [readOut, hr] at heq
              simp only [readOut, hr']
              exact heq
          | num nv =>
              simp only [readOut, hr] at heq
              simp only [readOut, hr']
              exact heq
          | bool bv =>
              simp only [readOut, hr] at heq
              simp only [readOut, hr']
              exact heq
          | null =>
              simp only [readOut, hr] at heq
              simp only [readOut, hr']
              exact heq

theorem okFieldsLoop_of_forall {ok : Nat → Option Bool} :
    ∀ {fields : List (String × Nat)},
    (∀ kv ∈ fields, ok kv.2 = some true) →
    okFieldsLoop ok fields = some true := by
  intro fields
  induction fields with
  | nil => intro _; rfl
  | cons kv rest ih =>
      intro hall
      obtain ⟨k, v⟩ := kv
      simp only [okFieldsLoop, hall (k, v) (List.mem_cons_self _ _),
        ih (fun kv hkv => hall kv (List.mem_cons_of_mem _ hkv))]
      rfl

theorem okElemsLoop_of_forall {ok : Nat → Option Bool} :
    ∀ {elems : List Nat},
    (∀ v ∈ elems, ok v = some true) →
    okElemsLoop ok elems = some true := by
  intro elems
  induction elems with
  | nil => intro _; rfl
  | cons v rest ih =>
      intro hall
      simp only [okElemsLoop, hall v (List.mem_cons_self _ _),
        ih (fun u hu => hall u (List.mem_cons_of_mem _ hu))]
      rfl

theorem schemaOkH_mono {h ext : Heap} :
    ∀ (f a : Nat), schemaOkH f h a = some true →
    schemaOkH f (h ++ ext) a = some true := by
  intro f
  induction f with
  | zero => intro a hok; cases hok
  | succ f ih =>
      intro a hok
      cases hr : Heap.read h a with
      | none => simp only [schemaOkH, hr] at hok; cases hok
      | some node =>
          have hr' : Heap.read (h ++ ext) a = some node := by
            rw [heapRead_append (heapRead_lt hr)]; exact hr
          cases node with
          | obj fields =>
              simp only [schemaOkH, hr] at hok
              simp only [schemaOkH, hr']
              by_cases h1 : hasKey fields "$ref"
              · rw [if_pos h1] at hok; cases hok
              · rw [if_neg h1] at hok ⊢
                by_cases h2 : !nodupKeys (fields.map Prod.fst)
                · rw [if_pos h2] at hok; cases hok
                · rw [if_neg h2] at hok ⊢
                  exact okFieldsLoop_of_forall
                    (fun kv hkv => ih kv.2 (okFieldsLoop_true hok kv hkv))
          | arr elems =>
              simp only [schemaOkH, hr] at hok
              simp only [schemaOkH, hr']
              exact okElemsLoop_of_forall
                (fun v hv => ih v (okElemsLoop_true hok v hv))
          | str sv => simp only [schemaOkH, hr']
          | num nv => simp only [schemaOkH, hr']
          | bool bv => simp only [schemaOkH, hr']
          | null => simp only [schemaOkH, hr']

theorem copyFieldsLoop_keys {copy : Heap → Nat → Option (Heap × Nat)} :
    ∀ (fields : List (String × Nat)) (h hmid : Heap)
      (fields' : List (String × Nat)),
    copyFieldsLoop copy h fields = some (hmid, fields') →
    fields'.map Prod.fst = fields.map Prod.fst := by
  intro fields
  induction fields with
  | nil =>
      intro h hmid fields' heq
      simp only [copyFieldsLoop] at heq
      cases heq
      rfl
  | cons kv rest ih =>
      intro h hmid fields' heq
      obtain ⟨k, v⟩ := kv
      simp only [copyFieldsLoop] at heq
      split at heq
      case h_2 => cases heq
      case h_1 hstep v' hcopy =>
        split at heq
        case h_2 => cases heq
        case h_1 hmid2 rest' hloop =>
          have hkeys := ih hstep hmid2 rest' hloop
          cases heq
          simp only [List.map_cons]
          rw [hkeys]

theorem hasKey_any_keys {α : Type} (l : List (String × α)) (k : String) :
    hasKey l k = (l.map Prod.fst).any (fun s => s == k) := by
  induction l with
  | nil => rfl
  | cons kv rest ih => simp [hasKey, List.any_cons] at ih ⊢; rw [ih]

theorem copyFieldsLoop_readOut {copy : Heap → Nat → Option (Heap × Nat)}
    (Hcopy : CopySpec copy)
    (Hread : ∀ h a h1 a1, copy h a = some (h1, a1) →
      ∀ f t, readOut f h a = some t → readOut f h1 a1 = some t) :
    ∀ (fields : List (String × Nat)) (h hmid : Heap)
      (fields' : List (String × Nat)),
    copyFieldsLoop copy h fields = some (hmid, fields') →
    ∀ (f : Nat) (out : List (String × JVal)),
    readFieldsLoop (readOut f h) fields = some out →
    readFieldsLoop (readOut f hmid) fields' = some out := by
  intro fields
  induction fields with
  | nil =>
      intro h hmid fields' heq f out hread
      simp only [copyFieldsLoop] at heq
      cases heq
      exact hread
  | cons kv rest ih =>
      intro h hmid fields' heq f out hread
      obtain ⟨k, v⟩ := kv
      simp only [copyFieldsLoop] at heq
      split at heq
      case h_2 => cases heq
      case h_1 hstep v' hcopy =>
        split at heq
        case h_2 => cases heq
        case h_1 hmid2 rest' hloop =>
          simp only [readFieldsLoop] at hread
          cases hv : readOut f h v with
          | none => rw [hv] at hread; cases hread
          | some t0 =>
              simp only [hv] at hread
              cases hl : readFieldsLoop (readOut f h) rest with
              | none => simp only [hl] at hread; cases hread
              | some ts =>
                  simp only [hl] at hread
                  obtain ⟨ext1, hext1⟩ := (Hcopy h v hstep v' hcopy).1
                  have hv' : readOut f hstep v' = some t0 :=
                    Hread h v hstep v' hcopy f t0 hv
                  have hlstep : readFieldsLoop (readOut f hstep) rest = some ts := by
                    rw [← hext1]
                    exact readFieldsLoop_mono
                      (fun u tu hu => readOut_mono f u tu hu) rest ts hl
                  have hrest' := ih hstep hmid2 rest' hloop f ts hlstep
                  obtain ⟨ext2, hext2⟩ :=
                    (copyFieldsLoop_spec Hcopy rest hstep hmid2 rest' hloop).1
                  have hv'' : readOut f hmid2 v' = some t0 := by
                    rw [← hext2]
                    exact readOut_mono f v' t0 hv'
                  cases heq
                  simp only [readFieldsLoop, hv'', hrest']
                  exact hread

theorem copyElemsLoop_readOut {copy : Heap → Nat → Option (Heap × Nat)}
    (Hcopy : CopySpec copy)
    (Hread : ∀ h a h1 a1, copy h a = some (h1, a1) →
      ∀ f t, readOut f h a = some t → readOut f h1 a1 = some t) :
    ∀ (elems : List Nat) (h hmid : Heap) (elems' : List Nat),
    copyElemsLoop copy h elems = some (hmid, elems') →
    ∀ (f : Nat) (out : List JVal),
    readElemsLoop (readOut f h) elems = some out →
    readElemsLoop (readOut f hmid) elems' = some out := by
  intro elems
  induction elems with
  | nil =>
      intro h hmid elems' heq f out hread
      simp only [copyElemsLoop] at heq
      cases heq
      exact hread
  | cons v rest ih =>
      intro h hmid elems' heq f out hread
      simp only [copyElemsLoop] at heq
      split at heq
      case h_2 => cases heq
      case h_1 hstep v' hcopy =>
        split at heq
        case h_2 => cases heq
        case h_1 hmid2 rest' hloop =>
          simp only [readElemsLoop] at hread
          cases hv : readOut f h v with
          | none => rw [hv] at hread; cases hread
          | some t0 =>
              simp only [hv] at hread
              cases hl : readElemsLoop (readOut f h) rest with
              | none => simp only [hl] at hread; cases hread
              | some ts =>
                  simp only [hl] at hread
                  obtain ⟨ext1, hext1⟩ := (Hcopy h v hstep v' hcopy).1
                  have hv' : readOut f hstep v' = some t0 :=
                    Hread h v hstep v' hcopy f t0 hv
                  have hlstep : readElemsLoop (readOut f hstep) rest = some ts := by
                    rw [← hext1]
                    exact readElemsLoop_mono
                      (fun u tu hu => readOut_mono f u tu hu) rest ts hl
                  have hrest' := ih hstep hmid2 rest' hloop f ts hlstep
                  obtain ⟨ext2, hext2⟩ :=
                    (copyElemsLoop_spec Hcopy rest hstep hmid2 rest' hloop).1
                  have hv'' : readOut f hmid2 v' = some t0 := by
                    rw [← hext2]
                    exact readOut_mono f v' t0 hv'
                  cases heq
                  simp only [readElemsLoop, hv'', hrest']
                  exact hread

theorem deepcopy_readOut :
    ∀ (fuel : Nat) (h : Heap) (a : Nat) (h1 : Heap) (a1 : Nat),
    deepcopy fuel h a = some (h1, a1) →
    ∀ (f : Nat) (t : JVal), readOut f h a = some t →
    readOut f h1 a1 = some t := by
  intro fuel
  induction fuel with
  | zero => intro h a h1 a1 heq; cases heq
  | succ fuel ih =>
      intro h a h1 a1 heq f t hread
      cases f with
      | zero => cases hread
      | succ f =>
          cases hr : Heap.read h a with
          | none => simp only [readOut, hr] at hread; cases hread
          | some node =>
              cases node with
              | obj fields =>
                  simp only [deepcopy, hr] at heq
                  cases hl : copyFieldsLoop (deepcopy fuel) h fields with
                  | none => rw [hl] at heq; cases heq
                  | some p =>
                      obtain ⟨hmid, fields'⟩ := p
                      rw [hl] at heq
                      simp only [readOut, hr] at hread
                      cases hrf : readFieldsLoop (readOut f h) fields with
                      | none => rw [hrf] at hread; cases hread
                      | some out =>
                          rw [hrf] at hread
                          have hout := copyFieldsLoop_readOut (deepcopy_spec fuel)
                            (fun hh aa hh1 aa1 hc ff tt hrd =>
                              ih hh aa hh1 aa1 hc ff tt hrd)
                            fields h hmid fields' hl f out hrf
                          cases heq
                          simp only [readOut, heapRead_concat]
                          rw [readFieldsLoop_mono
                            (fun u tu hu => readOut_mono f u tu hu)
                            fields' out hout]
                          exact hread
              | arr elems =>
                  simp only [deepcopy, hr] at heq
                  cases hl : copyElemsLoop (deepcopy fuel) h elems with
                  | none => rw [hl] at heq; cases heq
                  | some p =>
                      obtain ⟨hmid, elems'⟩ := p
                      rw [hl] at heq
                      simp only [readOut, hr] at hread
                      cases hrf : readElemsLoop (readOut f h) elems with
                      | none => rw [hrf] at hread; cases hread
                      | some out =>
                          rw [hrf] at hread
                          have hout := copyElemsLoop_readOut (deepcopy_spec fuel)
                            (fun hh aa hh1 aa1 hc ff tt hrd =>
                              ih hh aa hh1 aa1 hc ff tt hrd)
                            elems h hmid elems' hl f out hrf
                          cases heq
                          simp only [readOut, heapRead_concat]
                          rw [readElemsLoop_mono
                            (fun u tu hu => readOut_mono f u tu hu)
                            elems' out hout]
                          exact hread
              | str sv =>
                  simp only [deepcopy, hr] at heq
                  cases heq
                  simp only [readOut, hr] at hread
                  simp only [readOut, heapRead_concat]
                  exact hread
              | num nv =>
                  simp only [deepcopy, hr] at heq
                  cases heq
                  simp only [readOut, hr] at hread
                  simp only [readOut, heapRead_concat]
                  exact hread
              | bool bv =>
                  simp only [deepcopy, hr] at heq
                  cases heq
                  simp only [readOut, hr] at hread
                  simp only [readOut, heapRead_concat]
                  exact hread
              | null =>
                  simp only [deepcopy, hr] at heq
                  cases heq
                  simp only [readOut, hr] at hread
                  simp only [readOut, heapRead_concat]
                  exact hread

theorem copyFieldsLoop_schemaOk {copy : Heap → Nat → Option (Heap × Nat)}
    (Hcopy : CopySpec copy)
    (Hok : ∀ h a h1 a1, copy h a = some (h1, a1) →
      ∀ f, schemaOkH f h a = some true → schemaOkH f h1 a1 = some true) :
    ∀ (fields : List (String × Nat)) (h hmid : Heap)
      (fields' : List (String × Nat)),
    copyFieldsLoop copy h fields = some (hmid, fields') →
    ∀ (f : Nat), (∀ kv ∈ fields, schemaOkH f h kv.2 = some true) →
    ∀ kv ∈ fields', schemaOkH f hmid kv.2 = some true := by
  intro fields
  induction fields with
  | nil =>
      intro h hmid fields' heq f hall kv hkv
      simp only [copyFieldsLoop] at heq
      cases heq
      cases hkv
  | cons kv0 rest ih =>
      intro h hmid fields' heq f hall kv hkv
      obtain ⟨k, v⟩ := kv0
      simp only [copyFieldsLoop] at heq
      split at heq
      case h_2 => cases heq
      case h_1 hstep v' hcopy =>
        split at heq
        case h_2 => cases heq
        case h_1 hmid2 rest' hloop =>
          obtain ⟨ext1, hext1⟩ := (Hcopy h v hstep v' hcopy).1
          obtain ⟨ext2, hext2⟩ :=
            (copyFieldsLoop_spec Hcopy rest hstep hmid2 rest' hloop).1
          have hv' : schemaOkH f hstep v' = some true :=
            Hok h v hstep v' hcopy f (hall (k, v) (List.mem_cons_self _ _))
          have hv'' : schemaOkH f hmid2 v' = some true := by
            rw [← hext2]
            exact schemaOkH_mono f v' hv'
          have hallstep : ∀ kv ∈ rest, schemaOkH f hstep kv.2 = some true := by
            intro kv1 hkv1
            rw [← hext1]
            exact schemaOkH_mono f kv1.2
              (hall kv1 (List.mem_cons_of_mem _ hkv1))
          have hrest := ih hstep hmid2 rest' hloop f hallstep
          cases heq
          rcases List.mem_cons.mp hkv with h1 | h1
          · subst h1; exact hv''
          · exact hrest kv h1

theorem copyElemsLoop_schemaOk {copy : Heap → Nat → Option (Heap × Nat)}
    (Hcopy : CopySpec copy)
    (Hok : ∀ h a h1 a1, copy h a = some (h1, a1) →
      ∀ f, schemaOkH f h a = some true → schemaOkH f h1 a1 = some true) :
    ∀ (elems : List Nat) (h hmid : Heap) (elems' : List Nat),
    copyElemsLoop copy h elems = some (hmid, elems') →
    ∀ (f : Nat), (∀ v ∈ elems, schemaOkH f h v = some true) →
    ∀ v ∈ elems', schemaOkH f hmid v = some true := by
  intro elems
  induction elems with
  | nil =>
      intro h hmid elems' heq f hall v hv
      simp only [copyElemsLoop] at heq
      cases heq
      cases hv
  | cons v0 rest ih =>
      intro h hmid elems' heq f hall v hv
      simp only [copyElemsLoop] at heq
      split at heq
      case h_2 => cases heq
      case h_1 hstep v' hcopy =>
        split at heq
        case h_2 => cases heq
        case h_1 hmid2 rest' hloop =>
          obtain ⟨ext1, hext1⟩ := (Hcopy h v0 hstep v' hcopy).1
          obtain ⟨ext2, hext2⟩ :=
            (copyElemsLoop_spec Hcopy rest hstep hmid2 rest' hloop).1
          have hv' : schemaOkH f hstep v' = some true :=
            Hok h v0 hstep v' hcopy f (hall v0 (List.mem_cons_self _ _))
          have hv'' : schemaOkH f hmid2 v' = some true := by
            rw [← hext2]
            exact schemaOkH_mono f v' hv'
          have hallstep : ∀ u ∈ rest, schemaOkH f hstep u = some true := by
            intro u hu
            rw [← hext1]
            exact schemaOkH_mono f u (hall u (List.mem_cons_of_mem _ hu))
          have hrest := ih hstep hmid2 rest' hloop f hallstep
          cases heq
          rcases List.mem_cons.mp hv with h1 | h1
          · subst h1; exact hv''
          · exact hrest v h1

theorem deepcopy_schemaOk :
    ∀ (fuel : Nat) (h : Heap) (a : Nat) (h1 : Heap) (a1 : Nat),
    deepcopy fuel h a = some (h1, a1) →
    ∀ (f : Nat), schemaOkH f h a = some true →
    schemaOkH f h1 a1 = some true := by
  intro fuel
  induction fuel with
  | zero => intro h a h1 a1 heq; cases heq
  | succ fuel ih =>
      intro h a h1 a1 heq f hok
      cases f with
      | zero => cases hok
      | succ f =>
          cases hr : Heap.read h a with
          | none => simp only [schemaOkH, hr] at hok; cases hok
          | some node =>
              cases node with
              | obj fields =>
                  simp only [deepcopy, hr] at heq
                  cases hl : copyFieldsLoop (deepcopy fuel) h fields with
                  | none => rw [hl] at heq; cases heq
                  | some p =>
                      obtain ⟨hmid, fields'⟩ := p
                      rw [hl] at heq
                      simp only [schemaOkH, hr] at hok
                      have hkeys := copyFieldsLoop_keys fields h hmid fields' hl
                      by_cases h1k : hasKey fields "$ref"
                      · rw [if_pos h1k] at hok; cases hok
                      · rw [if_neg h1k] at hok
                        by_cases h2k : !nodupKeys (fields.map Prod.fst)
                        · rw [if_pos h2k] at hok; cases hok
                        · rw [if_neg h2k] at hok
                          have hok' := okFieldsLoop_true hok
                          have hall := copyFieldsLoop_schemaOk (deepcopy_spec fuel)
                            (fun hh aa hh1 aa1 hc ff hkk => ih hh aa hh1 aa1 hc ff hkk)
                            fields h hmid fields' hl f hok'
                          cases heq
                          simp only [schemaOkH, heapRead_concat]
                          rw [if_neg (by
                            rw [hasKey_any_keys, hkeys, ← hasKey_any_keys]
                            exact h1k)]
                          rw [if_neg (by rw [hkeys]; exact h2k)]
                          refine okFieldsLoop_of_forall ?_
                          intro kv hkv
                          exact schemaOkH_mono f kv.2 (hall kv hkv)
              | arr elems =>
                  simp only [deepcopy, hr] at heq
                  cases hl : copyElemsLoop (deepcopy fuel) h elems with
                  | none => rw [hl] at heq; cases heq
                  | some p =>
                      obtain ⟨hmid, elems'⟩ := p
                      rw [hl] at heq
                      simp only [schemaOkH, hr] at hok
                      have hall := copyElemsLoop_schemaOk (deepcopy_spec fuel)
                        (fun hh aa hh1 aa1 hc ff hkk => ih hh aa hh1 aa1 hc ff hkk)
                        elems h hmid elems' hl f (okElemsLoop_true hok)
                      cases heq
                      simp only [schemaOkH, heapRead_concat]
                      refine okElemsLoop_of_forall ?_
                      intro v hv
                      exact schemaOkH_mono f v (hall v hv)
              | str sv =>
                  simp only [deepcopy, hr] at heq
                  cases heq
                  simp only [schemaOkH, heapRead_concat]
              | num nv =>
                  simp only [deepcopy, hr] at heq
                  cases heq
                  simp only [schemaOkH, heapRead_concat]
              | bool bv =>
                  simp only [deepcopy, hr] at heq
                  cases heq
                  simp only [schemaOkH, heapRead_concat]
              | null =>
                  simp only [deepcopy, hr] at heq
                  cases heq
                  simp only [schemaOkH, heapRead_concat]

/-- C9: on a document with no reachable $ref node (and duplicate-free dict
keys, as every Python dict document has), resolve_refs returns a tree
structurally equal to its input: whenever it succeeds, reading the result
out of the heap gives exactly the tree the input read out to, because the
walk of the fresh copy performs no write at all. -/
theorem resolve_refs_identity_on_resolved (fuel f g : Nat) (h : Heap) (a : Nat)
    (h' : Heap) (r : Nat) (t : JVal)
    (hok : schemaOkH f h a = some true)
    (hread : readOut g h a = some t)
    (heq : resolve_refs fuel h a = some (h', r)) :
    readOut g h' r = some t := by
  unfold resolve_refs at heq
  cases hdc : deepcopy fuel h a with
  | none => rw [hdc] at heq; cases heq
  | some p =>
      obtain ⟨h1, a1⟩ := p
      rw [hdc] at heq
      have hok1 := deepcopy_schemaOk fuel h a h1 a1 hdc f hok
      have hread1 := deepcopy_readOut fuel h a h1 a1 hdc g t hread
      obtain ⟨he1, he2⟩ := doResolve_noop f h1 a1 hok1 fuel a1 h' r heq
      rw [he1, he2]
      exact hread1

/-- Witness for the identity theorem: the reference-free document a: [v: 7]
reads out unchanged after resolution. -/
theorem resolve_refs_identity_on_resolved_witness :
    schemaOkH 4 noRefHeap 0 = some true ∧
    readOut 4 noRefHeap 0 =
      some (JVal.obj [("a", JVal.obj [("v", JVal.num 7)])]) ∧
    readOut 4 ((resolve_refs 8 noRefHeap 0).getD ([], 0)).1
        ((resolve_refs 8 noRefHeap 0).getD ([], 0)).2 =
      some (JVal.obj [("a", JVal.obj [("v", JVal.num 7)])]) := by
  refine ⟨rfl, rfl, ?_⟩
  have hsome : resolve_refs 8 noRefHeap 0 =
      some (((resolve_refs 8 noRefHeap 0).getD ([], 0)).1,
            ((resolve_refs 8 noRefHeap 0).getD ([], 0)).2) := rfl
  exact resolve_refs_identity_on_resolved 8 4 4 noRefHeap 0 _ _ _ rfl rfl hsome
